import Mathlib

/-!
Shallow embedding of the dictdb table engine (src/src/dictdb) in Lean 4,
used to settle the frozen claims C1-C10 about the natural-language spec.

Conventions:
* Python's dynamically typed record values are modelled by the tagged union
  `Value` covering the kinds the claims exercise: integers, strings and None.
* A Python `dict` is modelled as an association list in insertion order
  (`alookup`/`aset`/`adel` mirror `d[k]`, `d[k] = v`, `del d[k]`).
* A raised host exception (TypeError / KeyError) that the code does not
  catch is modelled by `Option`/an explicit error value, never by a default.
-/

namespace DictDB

/-- Dynamically typed record value (tagged union over the kinds used by the
repository's tests: int, str, None). -/
inductive Value : Type where
  | int (n : Int)
  | str (s : String)
  | none
deriving DecidableEq, Repr

/-- Python dynamic types, for `isinstance` checks in schema validation. -/
inductive PyType : Type where
  | intT
  | strT
  | noneT
deriving DecidableEq, Repr

/-- `type(v)` of a value. -/
def Value.typeOf : Value → PyType
  | .int _ => .intT
  | .str _ => .strT
  | .none => .noneT

/-- `isinstance(v, t)`: in our value universe, dynamic type equality. -/
def isinstance (v : Value) (t : PyType) : Bool :=
  v.typeOf = t

/-- Python's lexicographic `<` on strings, character by character by code
point, a shorter prefix sorting first. -/
def charListLt : List Char → List Char → Bool
  | [], [] => false
  | [], _ :: _ => true
  | _ :: _, [] => false
  | c :: cs, d :: ds =>
    if c < d then true else if d < c then false else charListLt cs ds

/-- Python `a < b` on dynamic values: defined within ints and within strings,
a `TypeError` (modelled as `Option.none`) across kinds or on `None`. -/
def pyLt : Value → Value → Option Bool
  | .int a, .int b => some (decide (a < b))
  | .str a, .str b => some (charListLt a.data b.data)
  | _, _ => Option.none

/-- Python `a <= b` on dynamic values. -/
def pyLe : Value → Value → Option Bool
  | .int a, .int b => some (decide (a ≤ b))
  | .str a, .str b => some (charListLt a.data b.data || decide (a = b))
  | _, _ => Option.none

/-- Python `max(xs)` over a nonempty iterable: keeps the current maximum,
replacing it when a later item compares greater; any undefined comparison
raises (`Option.none`). -/
def pyMax (x : Value) (xs : List Value) : Option Value :=
  xs.foldlM (fun acc v => (pyLt acc v).map (fun b => if b then v else acc)) x

/-- Python `v + 1`, defined only for ints (auto primary-key assignment). -/
def pyAdd1 : Value → Option Value
  | .int n => some (.int (n + 1))
  | _ => Option.none

section AssocList

variable {κ : Type} {β : Type} [DecidableEq κ]

/-- `d.get(k)` on an insertion-ordered dict modelled as an association list. -/
def alookup : List (κ × β) → κ → Option β
  | [], _ => Option.none
  | (k, v) :: rest, a => if k = a then some v else alookup rest a

/-- `d[k] = v`: replace in place when the key exists, else append. -/
def aset : List (κ × β) → κ → β → List (κ × β)
  | [], a, b => [(a, b)]
  | (k, v) :: rest, a, b => if k = a then (a, b) :: rest else (k, v) :: aset rest a b

/-- `del d[k]`: remove the entry for the key (first occurrence). -/
def adel : List (κ × β) → κ → List (κ × β)
  | [], _ => []
  | (k, v) :: rest, a => if k = a then rest else (k, v) :: adel rest a

/-- Keys of the dict, in insertion order. -/
def akeys (l : List (κ × β)) : List κ := l.map Prod.fst

/-- `k in d`. -/
def acontains (l : List (κ × β)) (a : κ) : Bool := (alookup l a).isSome

end AssocList

/-- A record: a `dict` from field name to value, in insertion order. -/
abbrev Record : Type := List (String × Value)

/-- `record.get(field)` — `None` when a record field is absent (the source
uses `dict.get`, which defaults to `None`). -/
def rget (r : Record) (f : String) : Value :=
  (alookup r f).getD .none

/-- `field in record`. -/
def rhas (r : Record) (f : String) : Bool := acontains r f

/-- `record[field] = v`. -/
def rset (r : Record) (f : String) (v : Value) : Record := aset r f v

/-- `record.update(changes)`: each change key overwrites in place or appends. -/
def rmerge (r : Record) (changes : Record) : Record :=
  changes.foldl (fun acc p => rset acc p.1 p.2) r

/-- Comparison operators of `_FieldCondition` (`operator.eq` etc.). -/
inductive POp : Type where
  | eq
  | ne
  | lt
  | le
  | gt
  | ge
deriving DecidableEq, Repr

/-- Apply a comparison operator the way `operator.xx(a, b)` does on dynamic
values; `Option.none` models a raised `TypeError`. -/
def pyOpApply : POp → Value → Value → Option Bool
  | .eq, a, b => some (decide (a = b))
  | .ne, a, b => some (decide (a ≠ b))
  | .lt, a, b => pyLt a b
  | .le, a, b => pyLe a b
  | .gt, a, b => pyLt b a
  | .ge, a, b => pyLe b a

/-- Predicate expression tree over records: `_FieldCondition`, `_IsInCondition`,
`_BetweenCondition` and the `PredicateExpr` combinators `&`, `|`, `~`.
A `Condition` wraps exactly one of these (`Condition.condition.func`). -/
inductive Pred : Type where
  | fieldCond (field : String) (value : Value) (op : POp)
  | isIn (field : String) (values : List Value)
  | between (field : String) (low high : Value)
  | pand (p q : Pred)
  | por (p q : Pred)
  | pnot (p : Pred)
deriving DecidableEq, Repr

/-- Evaluate a predicate against a record. `Option.none` models an uncaught
host exception escaping the evaluation (`_FieldCondition.__call__` applies
the operator with no try/except; `between` catches `TypeError` and returns
`False`; `and`/`or` short-circuit like the host's boolean operators). -/
def evalPred : Pred → Record → Option Bool
  | .fieldCond f v op, r => pyOpApply op (rget r f) v
  | .isIn f vs, r => some (decide (rget r f ∈ vs))
  | .between f lo hi, r =>
    let val := rget r f
    if val = .none then some false
    else
      some (match pyLe lo val with
        | some true =>
          match pyLe val hi with
          | some b => b
          | Option.none => false
        | some false => false
        | Option.none => false)
  | .pand p q, r => do
    let b ← evalPred p r
    if b then evalPred q r else pure false
  | .por p q, r => do
    let b ← evalPred p r
    if b then pure true else evalPred q r
  | .pnot p, r => (evalPred p r).map (!·)

/-- Evaluate an optional `where` condition; no condition matches everything
(`where is None or where(record)`). -/
def evalWhere (w : Option Pred) (r : Record) : Option Bool :=
  match w with
  | Option.none => some true
  | some p => evalPred p r

/-! ## Index subsystem (`dictdb/index.py` HashIndex, `dictdb/index/sorted.py`) -/

/-- Bucket map of `HashIndex`: `dict` value -> set of primary keys.
The pk set is modelled as a duplicate-free list. -/
abbrev HashBuckets : Type := List (Value × List Value)

/-- `HashIndex.insert`: `self.index.setdefault(value, set()).add(pk)`. -/
def hashInsert (b : HashBuckets) (pk v : Value) : HashBuckets :=
  match b with
  | [] => [(v, [pk])]
  | (w, pks) :: rest =>
    if w = v then (w, if pk ∈ pks then pks else pks ++ [pk]) :: rest
    else (w, pks) :: hashInsert rest pk v

/-- `HashIndex.delete`: discard pk from the value's set, pruning empty sets. -/
def hashDelete (b : HashBuckets) (pk v : Value) : HashBuckets :=
  match b with
  | [] => []
  | (w, pks) :: rest =>
    if w = v then
      let pks' := pks.erase pk
      if pks' = [] then rest else (w, pks') :: rest
    else (w, pks) :: hashDelete rest pk v

/-- `HashIndex.update`: remove pk from the old value's set (pruning) and
insert it under the new value. -/
def hashUpdate (b : HashBuckets) (pk oldv newv : Value) : HashBuckets :=
  hashInsert (hashDelete b pk oldv) pk newv

/-- `HashIndex.search`: `self.index.get(value, set())`. -/
def hashSearch (b : HashBuckets) (v : Value) : List Value :=
  (alookup b v).getD []

/-- Sorted-index entries: the `SortedList` of `(value, pk)` tuples. -/
abbrev SortedEntries : Type := List (Value × Value)

/-- Python `<` on `(value, pk)` tuples: the first components are compared
with `==` to find the deciding position, then `<` decides (and may raise). -/
def tupLt (a b : Value × Value) : Option Bool :=
  if a.1 = b.1 then
    if a.2 = b.2 then some false else pyLt a.2 b.2
  else pyLt a.1 b.1

/-- `SortedList.add((value, pk))`, modelled as a linear `insort` placing the
new tuple after any equal elements (bisect-right position); an undefined
tuple comparison on the way raises (`Option.none`), leaving the list as it
was. -/
def sortedAdd (e : SortedEntries) (x : Value × Value) : Option SortedEntries :=
  match e with
  | [] => some [x]
  | y :: rest =>
    match tupLt x y with
    | Option.none => Option.none
    | some true => some (x :: y :: rest)
    | some false => (sortedAdd rest x).map (y :: ·)

/-- `SortedList.discard((value, pk))`, modelled as a linear scan to the
bisect position: remove the exact tuple if present; undefined comparisons
raise. -/
def sortedDiscard (e : SortedEntries) (x : Value × Value) : Option SortedEntries :=
  match e with
  | [] => some []
  | y :: rest =>
    match tupLt y x with
    | Option.none => Option.none
    | some true => (sortedDiscard rest x).map (y :: ·)
    | some false => if y = x then some rest else some (y :: rest)

/-- `SortedIndex.search(value)`: scan for tuples whose value equals the query
(`==` checked first, never raising), stopping at the first strictly greater
value (`>` may raise on incomparable kinds, as in the bisect-based source). -/
def sortedSearch (e : SortedEntries) (v : Value) : Option (List Value) :=
  match e with
  | [] => some []
  | (w, pk) :: rest =>
    if w = v then (sortedSearch rest v).map (pk :: ·)
    else
      match pyLt v w with
      | Option.none => Option.none
      | some true => some []
      | some false => sortedSearch rest v

/-- An installed secondary index: `HashIndex` or `SortedIndex`. -/
inductive Index : Type where
  | hash (buckets : HashBuckets)
  | sorted (entries : SortedEntries)
deriving DecidableEq

/-- `index.insert(pk, value)`; `Option.none` models a raised exception
(only the sorted variant can raise), with the index left unchanged. -/
def idxInsert (i : Index) (pk v : Value) : Option Index :=
  match i with
  | .hash b => some (.hash (hashInsert b pk v))
  | .sorted e => (sortedAdd e (v, pk)).map .sorted

/-- `index.delete(pk, value)`. -/
def idxDelete (i : Index) (pk v : Value) : Option Index :=
  match i with
  | .hash b => some (.hash (hashDelete b pk v))
  | .sorted e => (sortedDiscard e (v, pk)).map .sorted

/-- `index.update(pk, old, new)`: hash = discard+insert on the buckets;
sorted = delete then insert. A raise in the second phase leaves the first
phase's effect behind (delete-then-insert, not swap-in-place). -/
def idxUpdate (i : Index) (pk oldv newv : Value) : Index × Bool :=
  match i with
  | .hash b => (.hash (hashUpdate b pk oldv newv), true)
  | .sorted e =>
    match sortedDiscard e (oldv, pk) with
    | Option.none => (.sorted e, false)
    | some e' =>
      match sortedAdd e' (newv, pk) with
      | Option.none => (.sorted e', false)
      | some e'' => (.sorted e'', true)

/-- `index.search(value)`. -/
def idxSearch (i : Index) (v : Value) : Option (List Value) :=
  match i with
  | .hash b => some (hashSearch b v)
  | .sorted e => sortedSearch e v

/-- Entry-level membership in an index: the pk is recorded under the value. -/
def idxMem (i : Index) (v pk : Value) : Prop :=
  match i with
  | .hash b => pk ∈ hashSearch b v
  | .sorted e => (v, pk) ∈ e

instance (i : Index) (v pk : Value) : Decidable (idxMem i v pk) := by
  unfold idxMem
  cases i <;> infer_instance

/-! ## Schema validation (`Table.validate_record`) -/

/-- A table schema: field name -> expected dynamic type, insertion-ordered. -/
abbrev Schema : Type := List (String × PyType)

/-- The three message shapes of `SchemaValidationError`. -/
inductive ValErr : Type where
  | missingField (f : String)
  | typeMismatch (f : String)
  | unknownField (f : String)
deriving DecidableEq, Repr

/-- Errors leaving the table engine; `hostError` stands for an uncaught
Python exception (TypeError/KeyError) that is not one of the library's own
error classes. -/
inductive DbErr : Type where
  | duplicateKey
  | recordNotFound
  | validation (e : ValErr)
  | hostError
deriving DecidableEq, Repr

/-- Decidable equality of outcomes, to evaluate concrete traces. -/
instance {ε α : Type} [DecidableEq ε] [DecidableEq α] : DecidableEq (Except ε α) :=
  fun x y =>
    match x, y with
    | .ok a, .ok b =>
      if h : a = b then isTrue (by rw [h]) else isFalse (by intro hc; cases hc; exact h rfl)
    | .ok _, .error _ => isFalse (by intro hc; cases hc)
    | .error _, .ok _ => isFalse (by intro hc; cases hc)
    | .error e, .error e' =>
      if h : e = e' then isTrue (by rw [h]) else isFalse (by intro hc; cases hc; exact h rfl)

/-- First schema-order violation among the declared fields: absent field ->
`MissingField`, wrong dynamic type -> `TypeMismatch`. -/
def checkDeclared (r : Record) : Schema → Option ValErr
  | [] => Option.none
  | (f, ty) :: rest =>
    match alookup r f with
    | Option.none => some (.missingField f)
    | some v => if isinstance v ty then checkDeclared r rest else some (.typeMismatch f)

/-- First record field not declared in the schema -> `UnknownField`. -/
def checkUnknown (s : Schema) : Record → Option ValErr
  | [] => Option.none
  | (f, _) :: rest =>
    if acontains s f then checkUnknown s rest else some (.unknownField f)

/-- `Table.validate_record`: no-op without a schema; otherwise check every
declared field (missing, then type, in schema order), then reject undeclared
record fields. -/
def validateRecord (schema : Option Schema) (r : Record) : Option ValErr :=
  match schema with
  | Option.none => Option.none
  | some s =>
    match checkDeclared r s with
    | some e => some e
    | Option.none => checkUnknown s r

/-! ## Table engine (`dictdb/core/table.py`) -/

/-- A table: primary-key field name, optional schema, pk -> record map and
field -> index map, all in insertion order. -/
structure Table : Type where
  primary_key : String
  schema : Option Schema
  records : List (Value × Record)
  indexes : List (String × Index)
deriving DecidableEq

/-- `Table.__init__`: empty record/index maps; when a schema is given and
lacks the primary key, the pk field is auto-inserted with integer type. -/
def Table.new (pk : String) (schema : Option Schema) : Table :=
  { primary_key := pk
    schema := (schema.map (fun s => if acontains s pk then s else aset s pk .intT))
    records := []
    indexes := [] }

/-- `index.registry.create(index_type)`.

Modelled from the spec: `dictdb/index/registry.py` is not under src/ (only
its caller `Table.create_index` is). Per spec sections 4.3/6, the factory
returns a fresh hash index for the hash kind and a fresh ordered index for
the sorted kind, and an unsupported index type is a creation failure (a
raised error, caught inside `create_index`). -/
def registryCreate (index_type : String) : Option Index :=
  if index_type = "hash" then some (.hash [])
  else if index_type = "sorted" then some (.sorted [])
  else Option.none

/-- The `try` body of `Table.create_index`: build the index and populate it
with every existing record that has the field; any raise aborts the whole
attempt (`Option.none`), discarding the partially built index. -/
def buildIndex (field : String) (index_type : String)
    (records : List (Value × Record)) : Option Index := do
  let idx0 ← registryCreate index_type
  records.foldlM
    (fun idx p => if rhas p.2 field then idxInsert idx p.1 (rget p.2 field) else some idx)
    idx0

/-- `Table.create_index`: no-op when the field is already indexed; on any
creation failure the error is caught and logged and the table is unchanged
(full scans continue to work); on success the new index is installed. -/
def Table.create_index (t : Table) (field : String) (index_type : String) : Table :=
  if acontains t.indexes field then t
  else
    match buildIndex field index_type t.records with
    | Option.none => t
    | some idx => { t with indexes := t.indexes ++ [(field, idx)] }

/-- `Table._update_indexes_on_insert`: add the new record to every index
whose field the record carries. A raise (sorted index, incomparable value)
leaves the earlier indexes updated and stops — the second component is the
success flag. -/
def idxsOnInsert (pk : Value) (r : Record) :
    List (String × Index) → List (String × Index) × Bool
  | [] => ([], true)
  | (f, idx) :: rest =>
    if rhas r f then
      match idxInsert idx pk (rget r f) with
      | some idx' =>
        let res := idxsOnInsert pk r rest
        ((f, idx') :: res.1, res.2)
      | Option.none => ((f, idx) :: rest, false)
    else
      let res := idxsOnInsert pk r rest
      ((f, idx) :: res.1, res.2)

/-- Shared tail of `Table.insert` once the key is known: validation, storage
under the pk, then index maintenance (in that source order, so an index
raise leaves the record stored). -/
def Table.insertKeyed (t : Table) (r : Record) (key : Value) : Except DbErr Unit × Table :=
  match validateRecord t.schema r with
  | some e => (.error (.validation e), t)
  | Option.none =>
    let records' := aset t.records key r
    let res := idxsOnInsert key r t.indexes
    if res.2 then (.ok (), { t with records := records', indexes := res.1 })
    else (.error .hostError, { t with records := records', indexes := res.1 })

/-- `Table.insert`: auto-assign `max(keys) + 1` (starting at 1) when the pk
field is absent, reject an existing explicit pk with `DuplicateKeyError`,
validate against the schema, then store the record and update the indexes.
Returns the outcome together with the table state after the call. -/
def Table.insert (t : Table) (r : Record) : Except DbErr Unit × Table :=
  if rhas r t.primary_key then
    let key := rget r t.primary_key
    if acontains t.records key then (.error .duplicateKey, t)
    else Table.insertKeyed t r key
  else
    let newKey : Option Value :=
      match t.records with
      | [] => some (.int 1)
      | (k0, _) :: rest => do pyAdd1 (← pyMax k0 (rest.map Prod.fst))
    match newKey with
    | Option.none => (.error .hostError, t)
    | some key => Table.insertKeyed t (rset r t.primary_key key) key

/-- `Table._is_indexed_eq_condition`: a bare `_FieldCondition` with
`operator.eq` on a currently indexed field. -/
def isIndexedEq (t : Table) (w : Pred) : Option (String × Value) :=
  match w with
  | .fieldCond f v .eq => if acontains t.indexes f then some (f, v) else Option.none
  | _ => Option.none

/-- Filter a candidate list by the optional condition, copying matches;
a raise during evaluation aborts the whole select. -/
def filterWhere (w : Option Pred) : List Record → Option (List Record)
  | [] => some []
  | r :: rest => do
    let b ← evalWhere w r
    let tail ← filterWhere w rest
    pure (if b then r :: tail else tail)

/-- `self.records[pk]` for each candidate pk (KeyError -> raise). -/
def lookupAll (records : List (Value × Record)) : List Value → Option (List Record)
  | [] => some []
  | pk :: rest => do
    let r ← alookup records pk
    let tail ← lookupAll records rest
    pure (r :: tail)

/-- The scan-and-filter phase of `Table.select`: index-assisted candidates
for a simple equality on an indexed field, full scan otherwise, then
re-filter by the condition. -/
def Table.selectScan (t : Table) (w : Option Pred) : Except DbErr (List Record) :=
  match w with
  | some p =>
    match isIndexedEq t p with
    | some (f, v) =>
      match alookup t.indexes f with
      | Option.none => .error .hostError
      | some idx =>
        match idxSearch idx v with
        | Option.none => .error .hostError
        | some pks =>
          match lookupAll t.records pks with
          | Option.none => .error .hostError
          | some candidates =>
            match filterWhere w candidates with
            | Option.none => .error .hostError
            | some res => .ok res
    | Option.none =>
      match filterWhere w (t.records.map Prod.snd) with
      | Option.none => .error .hostError
      | some res => .ok res
  | Option.none =>
    match filterWhere w (t.records.map Prod.snd) with
    | Option.none => .error .hostError
    | some res => .ok res

/-- The full-scan branch of `Table.select` in isolation (no index consulted):
filter all records in insertion order. -/
def Table.fullScan (t : Table) (w : Option Pred) : Option (List Record) :=
  filterWhere w (t.records.map Prod.snd)

/-- `Table._update_indexes_on_update` for one record: per index, compare the
field's old and new value (`dict.get`, None-defaulted); skip when unchanged,
otherwise `index.update`. A raise stops the walk (success flag false). -/
def idxsOnUpdate (pk : Value) (oldR newR : Record) :
    List (String × Index) → List (String × Index) × Bool
  | [] => ([], true)
  | (f, idx) :: rest =>
    let oldv := rget oldR f
    let newv := rget newR f
    if oldv = newv then
      let res := idxsOnUpdate pk oldR newR rest
      ((f, idx) :: res.1, res.2)
    else
      let upd := idxUpdate idx pk oldv newv
      if upd.2 then
        let res := idxsOnUpdate pk oldR newR rest
        ((f, upd.1) :: res.1, res.2)
      else ((f, upd.1) :: rest, false)

/-- The post-loop index pass of `Table.update`: for every updated key, in
encounter order, update every index from the key's backup to its current
record (`self.records[pk]`; a missing key would be a KeyError). -/
def updateIdxLoop (records' : List (Value × Record)) :
    List (Value × Record) → List (String × Index) → List (String × Index) × Bool
  | [], idxs => (idxs, true)
  | (pk, oldR) :: more, idxs =>
    match alookup records' pk with
    | Option.none => (idxs, false)
    | some newR =>
      let res := idxsOnUpdate pk oldR newR idxs
      if res.2 then updateIdxLoop records' more res.1
      else (res.1, false)

/-- The `try` loop of `Table.update` over the record map: for each match,
snapshot the pre-image, merge the changes in place, validate. Returns the
record list after the loop, the backups of updated records (in encounter
order), the update count, and the first error raised (a raised condition
evaluation is a host error; a failed validation carries its error). -/
def updateGo (changes : Record) (w : Option Pred) (schema : Option Schema) :
    List (Value × Record) →
    List (Value × Record) × List (Value × Record) × Nat × Option DbErr
  | [] => ([], [], 0, Option.none)
  | (k, r) :: rest =>
    match evalWhere w r with
    | Option.none => ((k, r) :: rest, [], 0, some .hostError)
    | some false =>
      let res := updateGo changes w schema rest
      ((k, r) :: res.1, res.2.1, res.2.2.1, res.2.2.2)
    | some true =>
      let r' := rmerge r changes
      match validateRecord schema r' with
      | some e => ((k, r') :: rest, [(k, r)], 0, some (.validation e))
      | Option.none =>
        let res := updateGo changes w schema rest
        ((k, r') :: res.1, (k, r) :: res.2.1, res.2.2.1 + 1, res.2.2.2)

/-- The `except` handler of `Table.update`: restore every touched key to its
backed-up pre-image. -/
def rollback (l : List (Value × Record)) (backups : List (Value × Record)) :
    List (Value × Record) :=
  backups.foldl (fun acc p => aset acc p.1 p.2) l

/-- `Table.update`: run the update loop; on any raise inside it, roll back
every touched record and re-raise; raise `RecordNotFoundError` (with the
same rollback handler) when nothing matched; on success update the indexes
for changed fields only — after the loop, so an index raise there leaves
the new record values in place. -/
def Table.update (t : Table) (changes : Record) (w : Option Pred) :
    Except DbErr Nat × Table :=
  let res := updateGo changes w t.schema t.records
  let l := res.1
  let backups := res.2.1
  let n := res.2.2.1
  match res.2.2.2 with
  | some e => (.error e, { t with records := rollback l backups })
  | Option.none =>
    if n = 0 then (.error .recordNotFound, { t with records := rollback l backups })
    else
      let ires := updateIdxLoop l backups t.indexes
      if ires.2 then (.ok n, { t with records := l, indexes := ires.1 })
      else (.error .hostError, { t with records := l, indexes := ires.1 })

/-- The key-collection comprehension of `Table.delete` (a raised condition
evaluation aborts the call before any mutation). -/
def keysToDelete (w : Option Pred) : List (Value × Record) → Option (List Value)
  | [] => some []
  | (k, r) :: rest => do
    let b ← evalWhere w r
    let tail ← keysToDelete w rest
    pure (if b then k :: tail else tail)

/-- `Table._update_indexes_on_delete`: remove the record from every index
whose field it carries, keyed by the record's primary-key field value. -/
def idxsOnDelete (pk : Value) (r : Record) :
    List (String × Index) → List (String × Index) × Bool
  | [] => ([], true)
  | (f, idx) :: rest =>
    if rhas r f then
      match idxDelete idx pk (rget r f) with
      | some idx' =>
        let res := idxsOnDelete pk r rest
        ((f, idx') :: res.1, res.2)
      | Option.none => ((f, idx) :: rest, false)
    else
      let res := idxsOnDelete pk r rest
      ((f, idx) :: res.1, res.2)

/-- The removal loop of `Table.delete`: per key, fetch the record, remove it
from the indexes under `record[self.primary_key]`, then delete the map entry
under the iteration key (note the two can differ if an update rewrote the
pk field). -/
def deleteLoop (pkField : String) :
    List Value → List (Value × Record) → List (String × Index) →
    List (Value × Record) × List (String × Index) × Bool
  | [], recs, idxs => (recs, idxs, true)
  | k :: ks, recs, idxs =>
    match alookup recs k with
    | Option.none => (recs, idxs, false)
    | some r =>
      match alookup r pkField with
      | Option.none => (recs, idxs, false)
      | some pkv =>
        let res := idxsOnDelete pkv r idxs
        if res.2 then deleteLoop pkField ks (adel recs k) res.1
        else (recs, res.1, false)

/-- `Table.delete`: collect matching keys first; `RecordNotFoundError` when
none; else remove each from indexes and from the record map, returning the
count. -/
def Table.delete (t : Table) (w : Option Pred) : Except DbErr Nat × Table :=
  match keysToDelete w t.records with
  | Option.none => (.error .hostError, t)
  | some [] => (.error .recordNotFound, t)
  | some ks =>
    let res := deleteLoop t.primary_key ks t.records t.indexes
    if res.2.2 then (.ok ks.length, { t with records := res.1, indexes := res.2.1 })
    else (.error .hostError, { t with records := res.1, indexes := res.2.1 })

/-! ## Query pipeline (`dictdb/query/order.py`, pager, projection) -/

/-- A stable insertion step: the new element (earlier in the original list)
is placed before the first element not strictly below it. -/
def sinsert (lt : Record → Record → Bool) (x : Record) : List Record → List Record
  | [] => [x]
  | y :: ys => if lt y x then y :: sinsert lt x ys else x :: y :: ys

/-- Stable sort by a strict comparator, modelling Python's stable
`list.sort`: elements that do not compare strictly keep their input order.
(For a total key order the stable sorted permutation is unique, so any
stable sort gives the same list as timsort.) -/
def ssort (lt : Record → Record → Bool) : List Record → List Record
  | [] => []
  | x :: xs => sinsert lt x (ssort lt xs)

/-- Parse one order_by entry: a leading hyphen (`field.startswith("-")`)
means descending, sorting by the rest of the name (`field[1:]`). -/
def parseField (field : String) : Bool × String :=
  match field.data with
  | '-' :: rest => (true, String.mk rest)
  | _ => (false, field)

/-- The comparator of one `result.sort(key=..., reverse=desc)` pass: keys
are `record.get(fname)` (None when missing), compared with the host's `<`.
`getD false` totalizes the comparator; it coincides with Python wherever
Python's comparison is defined (the C7 hypotheses enforce that). -/
def sortKeyLt (desc : Bool) (fname : String) (a b : Record) : Bool :=
  if desc then (pyLt (rget b fname) (rget a fname)).getD false
  else (pyLt (rget a fname) (rget b fname)).getD false

/-- `_sort_records`: one stable sort pass per field, from the last field to
the first. -/
def sortRecords (records : List Record) (fields : List String) : List Record :=
  fields.reverse.foldl
    (fun acc field =>
      let p := parseField field
      ssort (sortKeyLt p.1 p.2) acc)
    records

/-- `order_records`: no order_by (None or the falsy empty list) returns the
list unchanged; a bare string is normalized to its singleton list. -/
def orderRecords (records : List Record) (ob : Option (List String)) : List Record :=
  match ob with
  | Option.none => records
  | some [] => records
  | some fields => sortRecords records fields

/-- `slice_records`.

Modelled from the spec: `dictdb/query/pager.py` is not under src/ (only its
caller `Table.select` is). Spec section 4.5: with no order_by, limit/offset
are a plain slice — skip `offset` records, then take at most `limit`. -/
def sliceRecords (records : List Record) (limit : Option Nat) (offset : Nat) :
    List Record :=
  match limit with
  | Option.none => records.drop offset
  | some n => (records.drop offset).take n

/-- `project_records`, with the three columns shapes (name list, alias map,
alias pairs) normalized to alias-field pairs (a name list is its identity
pairing): build new records with `rec.get(field)` under each alias. -/
def projectRecords (records : List Record) (cols : Option (List (String × String))) :
    List Record :=
  match cols with
  | Option.none => records
  | some pairs => records.map (fun r => pairs.map (fun p => (p.1, rget r p.2)))

/-- `Table.select`: scan and filter under the reader lock, then order,
paginate and project outside it. -/
def Table.select (t : Table) (w : Option Pred) (orderBy : Option (List String))
    (limit : Option Nat) (offset : Nat) (columns : Option (List (String × String))) :
    Except DbErr (List Record) :=
  match t.selectScan w with
  | .error e => .error e
  | .ok filtered =>
    .ok (projectRecords (sliceRecords (orderRecords filtered orderBy) limit offset) columns)

/-! ## Reader/writer lock (`dictdb/core/rwlock.py`) -/

/-- Lock state of the table-scoped reader/writer lock.

Modelled from the spec: `dictdb/core/rwlock.py` is not under src/ (only its
tests and its caller are). Spec section 5: multiple readers may hold the
lock; a writer holds it exclusively; and — the explicit writer-preference
policy — once a writer is waiting, newly arriving readers queue behind it
instead of joining the active readers. -/
structure RWLock : Type where
  activeReaders : Nat
  writerActive : Bool
  waitingWriters : Nat
deriving DecidableEq, Repr

/-- The initial (free) lock. -/
def RWLock.init : RWLock := ⟨0, false, 0⟩

/-- A newly arriving reader acquires the lock only when no writer holds it
and no writer is waiting (writer preference); otherwise it blocks. -/
def RWLock.tryAcquireRead (l : RWLock) : Option RWLock :=
  if l.writerActive || decide (0 < l.waitingWriters) then Option.none
  else some { l with activeReaders := l.activeReaders + 1 }

/-- A writer announces itself and joins the waiting queue. -/
def RWLock.writerArrive (l : RWLock) : RWLock :=
  { l with waitingWriters := l.waitingWriters + 1 }

/-- A waiting writer acquires the lock only when no reader and no writer
holds it. -/
def RWLock.tryAcquireWrite (l : RWLock) : Option RWLock :=
  if decide (0 < l.activeReaders) || l.writerActive then Option.none
  else
    some { l with
            writerActive := true
            waitingWriters := l.waitingWriters - 1 }

/-- A reader releases the lock. -/
def RWLock.releaseRead (l : RWLock) : RWLock :=
  { l with activeReaders := l.activeReaders - 1 }

/-- The writer releases the lock. -/
def RWLock.releaseWrite (l : RWLock) : RWLock :=
  { l with writerActive := false }

/-! ## Invariants and reachability -/

/-- The index/table consistency property of claim C1, read off the spec: for
every indexed field f, every current record's f-value is found by the index
search (which returns the record's pk), and every pk a search returns maps
to a current record whose f-value is the searched value. -/
def IndexTableConsistent (t : Table) : Prop :=
  ∀ f idx, (f, idx) ∈ t.indexes →
    (∀ k r, alookup t.records k = some r → ∀ v, alookup r f = some v →
      ∃ pks, idxSearch idx v = some pks ∧ k ∈ pks) ∧
    (∀ v pks, idxSearch idx v = some pks → ∀ k, k ∈ pks →
      ∃ r, alookup t.records k = some r ∧ alookup r f = some v)

/-- Structural well-formedness of an index: hash buckets have distinct keys
and duplicate-free pk sets; sorted entries are strictly increasing in the
Python tuple order (hence pairwise comparable). -/
def IdxWF : Index → Prop
  | .hash b => (b.map Prod.fst).Nodup ∧ ∀ p, p ∈ b → (p.2 : List Value).Nodup
  | .sorted e => e.Pairwise (fun a b => tupLt a b = some true)

/-- Soundness of an index for a field: every entry points at a current
record holding exactly that value at the field. -/
def IdxSound (records : List (Value × Record)) (f : String) (i : Index) : Prop :=
  ∀ v pk, idxMem i v pk → ∃ r, alookup records pk = some r ∧ alookup r f = some v

/-- Completeness of an index for a field, for non-None values: every current
record with a non-None value at the field has an index entry. (A record that
gains an explicit None at a previously absent field through `update` is not
indexed — the old and new `dict.get` values are both None, so the index
update is skipped — which is why None is excluded here.) -/
def IdxComplete (records : List (Value × Record)) (f : String) (i : Index) : Prop :=
  ∀ v pk r, v ≠ .none → alookup records pk = some r → alookup r f = some v →
    idxMem i v pk

/-- The table-engine invariant maintained by the (restricted) reachable
states: distinct pks, the pk field of every stored record matches its map
key, and every installed index is well-formed, sound and complete for its
field. -/
def Inv (t : Table) : Prop :=
  (akeys t.records).Nodup ∧
  (∀ k r, (k, r) ∈ t.records → alookup r t.primary_key = some k) ∧
  (∀ f idx, (f, idx) ∈ t.indexes →
    IdxWF idx ∧ IdxSound t.records f idx ∧ IdxComplete t.records f idx)

/-- Table states reachable by insert/update/delete/create_index sequences,
restricted as the amended claim C1 requires: no call raises a host-level
exception out of index maintenance or key computation (calls failing with
the library's own errors are allowed), and no update call writes to the
primary-key field. -/
inductive ReachableA : Table → Prop where
  | init (pk : String) (schema : Option Schema) : ReachableA (Table.new pk schema)
  | step_insert {t : Table} (r : Record) : ReachableA t →
      (Table.insert t r).1 ≠ .error .hostError →
      ReachableA (Table.insert t r).2
  | step_update {t : Table} (changes : Record) (w : Option Pred) : ReachableA t →
      (Table.update t changes w).1 ≠ .error .hostError →
      acontains changes t.primary_key = false →
      ReachableA (Table.update t changes w).2
  | step_delete {t : Table} (w : Option Pred) : ReachableA t →
      (Table.delete t w).1 ≠ .error .hostError →
      ReachableA (Table.delete t w).2
  | step_create_index {t : Table} (f ty : String) : ReachableA t →
      ReachableA (Table.create_index t f ty)

/-! ## Concrete tables used to evaluate the claims on specific traces -/

/-- Fresh table with primary key id and no schema. -/
def exTable0 : Table := Table.new "id" Option.none

/-- After `insert({"id": 1, "f": 10})`. -/
def exTable1 : Table := (Table.insert exTable0 [("id", .int 1), ("f", .int 10)]).2

/-- After `create_index("f", "hash")`. -/
def exTable2 : Table := Table.create_index exTable1 "f" "hash"

/-- After `update({"id": 2}, where=(f == 10))` — the update rewrites the
primary-key field of the stored record while its map key stays 1. -/
def exTable3 : Table :=
  (Table.update exTable2 [("id", .int 2)] (some (.fieldCond "f" (.int 10) .eq))).2

/-- After `delete(where=(f == 10))` — `_update_indexes_on_delete` keys the
index removal by `record["id"] = 2`, so the entry for map key 1 survives. -/
def exTable4 : Table :=
  (Table.delete exTable3 (some (.fieldCond "f" (.int 10) .eq))).2

/-- Table `{1: {"id": 1}}` with a hash index on the (absent) field age. -/
def exTableNone1 : Table := (Table.insert exTable0 [("id", .int 1)]).2

/-- Same with `create_index("age", "hash")`. -/
def exTableNone2 : Table := Table.create_index exTableNone1 "age" "hash"

/-- Table `{1: {"id": 1, "f": "a"}}`. -/
def exTableStr1 : Table := (Table.insert exTable0 [("id", .int 1), ("f", .str "a")]).2

/-- Same with `create_index("f", "sorted")`. -/
def exTableStr2 : Table := Table.create_index exTableStr1 "f" "sorted"

/-- Table with schema `{id: int, a: int}`. -/
def exSchemaT : Table := Table.new "id" (some [("id", .intT), ("a", .intT)])

/-- After inserting `{"id": 1, "a": 5}`. -/
def exSchemaT1 : Table := (Table.insert exSchemaT [("id", .int 1), ("a", .int 5)]).2

/-- After inserting `{"id": 2, "a": 6}`. -/
def exSchemaT2 : Table := (Table.insert exSchemaT1 [("id", .int 2), ("a", .int 6)]).2

/-- After `insert({})`: auto key 1. -/
def exSeqT1 : Table := (Table.insert exTable0 []).2

/-- After a second `insert({})`: auto key 2. -/
def exSeqT2 : Table := (Table.insert exSeqT1 []).2

/-- After `delete(where=(id == 2))`. -/
def exSeqT3 : Table := (Table.delete exSeqT2 (some (.fieldCond "id" (.int 2) .eq))).2

/-- Two records whose "f" values (an int and a str) are order-incomparable. -/
def exMixT : Table := (Table.insert exTable1 [("id", .int 2), ("f", .str "a")]).2

/-- The lexicographic order established after a stable sort pass by a field:
the pass's key strictly dominates, and where it ties both ways the relation
`R` guaranteed by the earlier pass is retained (stability). -/
def lexAfter (d : Bool) (f : String) (R : Record → Record → Prop)
    (a b : Record) : Prop :=
  sortKeyLt d f a b = true ∨
  (sortKeyLt d f a b = false ∧ sortKeyLt d f b a = false ∧ R a b)

/-- `{"id": 1, "name": "alice", "age": 30}`. -/
def aliceR : Record := [("id", .int 1), ("name", .str "alice"), ("age", .int 30)]

/-- `{"id": 2, "name": "bob", "age": 25}`. -/
def bobR : Record := [("id", .int 2), ("name", .str "bob"), ("age", .int 25)]

/-- `{"id": 3, "name": "carol", "age": 30}`. -/
def carolR : Record := [("id", .int 3), ("name", .str "carol"), ("age", .int 30)]

/-- Three records with an age tie between alice and carol. -/
def exPeople : List Record := [aliceR, bobR, carolR]

/-- The claim-level index/table consistency with the forward direction
restricted to non-None values, as the amended claim C1 states it. -/
def IndexTableConsistentNN (t : Table) : Prop :=
  ∀ f idx, (f, idx) ∈ t.indexes →
    (∀ k r, alookup t.records k = some r → ∀ v, alookup r f = some v → v ≠ .none →
      ∃ pks, idxSearch idx v = some pks ∧ k ∈ pks) ∧
    (∀ v pks, idxSearch idx v = some pks → ∀ k, k ∈ pks →
      ∃ r, alookup t.records k = some r ∧ alookup r f = some v)

end DictDB

/-! ## Association-list lemmas -/

namespace DictDB

section AssocLemmas

variable {κ : Type} {β : Type} [DecidableEq κ]
variable {l : List (κ × β)} {k a : κ} {v : β}

theorem alookup_cons (p : κ × β) (rest : List (κ × β)) (a : κ) :
    alookup (p :: rest) a = if p.1 = a then some p.2 else alookup rest a := by
  obtain ⟨k', v'⟩ := p
  rfl

theorem adel_cons (p : κ × β) (rest : List (κ × β)) (a : κ) :
    adel (p :: rest) a = if p.1 = a then rest else p :: adel rest a := by
  obtain ⟨k', v'⟩ := p
  rfl

theorem aset_cons (p : κ × β) (rest : List (κ × β)) (a : κ) (b : β) :
    aset (p :: rest) a b = if p.1 = a then (a, b) :: rest else p :: aset rest a b := by
  obtain ⟨k', v'⟩ := p
  rfl

theorem alookup_eq_none_of_not_mem (h : a ∉ akeys l) : alookup l a = Option.none := by
  induction l with
  | nil => rfl
  | cons p rest ih =>
    rw [alookup_cons]
    rw [if_neg]
    · exact ih (fun hm => h (by simp [akeys, List.mem_cons]; right; simpa [akeys] using hm))
    · intro he
      exact h (by simp [akeys, he])

theorem alookup_aset (l : List (κ × β)) (k a : κ) (v : β) :
    alookup (aset l k v) a = if k = a then some v else alookup l a := by
  induction l with
  | nil => simp [aset, alookup]
  | cons p rest ih =>
    obtain ⟨k', v'⟩ := p
    by_cases hk : k' = k
    · subst hk
      by_cases ha : k' = a <;> simp [aset, alookup, ha]
    · by_cases ha : k' = a
      · subst ha
        have hka : ¬ k = k' := fun h => hk h.symm
        simp [aset, alookup, hk, hka]
      · simp [aset, alookup, hk, ha, ih]

theorem alookup_adel (hnd : (akeys l).Nodup) (k a : κ) :
    alookup (adel l k) a = if k = a then Option.none else alookup l a := by
  induction l with
  | nil => simp [adel, alookup]
  | cons p rest ih =>
    obtain ⟨k', v'⟩ := p
    simp only [akeys, List.map_cons, List.nodup_cons] at hnd
    rw [adel_cons]
    by_cases hk : k' = k
    · rw [if_pos hk]
      subst hk
      by_cases ha : k' = a
      · subst ha
        rw [if_pos rfl]
        exact alookup_eq_none_of_not_mem hnd.1
      · rw [if_neg ha, alookup_cons, if_neg ha]
    · rw [if_neg hk]
      by_cases ha : k' = a
      · subst ha
        have hka : ¬ k = k' := fun h => hk h.symm
        rw [if_neg hka, alookup_cons, alookup_cons, if_pos rfl, if_pos rfl]
      · rw [alookup_cons, if_neg ha, alookup_cons, if_neg ha]
        exact ih hnd.2

theorem adel_sublist (l : List (κ × β)) (k : κ) : (adel l k).Sublist l := by
  induction l with
  | nil => simp [adel]
  | cons p rest ih =>
    obtain ⟨k', v'⟩ := p
    by_cases hk : k' = k
    · simp [adel, hk]
    · simp only [adel, if_neg hk]
      exact ih.cons₂ _

theorem mem_aset {p : κ × β} (h : p ∈ aset l k v) : p = (k, v) ∨ p ∈ l := by
  induction l with
  | nil =>
    left
    simpa [aset] using h
  | cons q rest ih =>
    obtain ⟨k', v'⟩ := q
    by_cases hk : k' = k
    · subst hk
      simp only [aset, if_true, eq_self_iff_true, List.mem_cons] at h
      rcases h with h | h
      · exact Or.inl h
      · exact Or.inr (List.mem_cons_of_mem _ h)
    · simp only [aset, if_neg hk, List.mem_cons] at h
      rcases h with h | h
      · exact Or.inr (by simp [h])
      · rcases ih h with h' | h'
        · exact Or.inl h'
        · exact Or.inr (List.mem_cons_of_mem _ h')

theorem mem_adel {p : κ × β} (h : p ∈ adel l k) : p ∈ l :=
  (adel_sublist l k).mem h

theorem alookup_mem (h : alookup l k = some v) : (k, v) ∈ l := by
  induction l with
  | nil => simp [alookup] at h
  | cons q rest ih =>
    rw [alookup_cons] at h
    by_cases hk : q.1 = k
    · rw [if_pos hk] at h
      obtain ⟨k', v'⟩ := q
      simp only at hk
      subst hk
      simp only [Option.some.injEq] at h
      subst h
      exact List.mem_cons_self _ _
    · rw [if_neg hk] at h
      exact List.mem_cons_of_mem _ (ih h)

theorem mem_alookup (hnd : (akeys l).Nodup) {p : κ × β} (h : p ∈ l) :
    alookup l p.1 = some p.2 := by
  induction l with
  | nil => simp at h
  | cons q rest ih =>
    simp only [akeys, List.map_cons, List.nodup_cons] at hnd
    rcases List.mem_cons.mp h with h | h
    · subst h
      rw [alookup_cons, if_pos rfl]
    · have hne : q.1 ≠ p.1 := by
        intro he
        exact hnd.1 (he ▸ List.mem_map_of_mem Prod.fst h)
      rw [alookup_cons, if_neg hne]
      exact ih hnd.2 h

theorem acontains_eq_true_iff : acontains l a = true ↔ a ∈ akeys l := by
  induction l with
  | nil => simp [acontains, alookup, akeys]
  | cons p rest ih =>
    rw [acontains, alookup_cons]
    by_cases hk : p.1 = a
    · simp [hk, akeys]
    · rw [if_neg hk]
      rw [acontains] at ih
      rw [ih]
      simp [akeys, Ne.symm hk]

theorem acontains_eq_false_iff : acontains l a = false ↔ a ∉ akeys l := by
  rw [← acontains_eq_true_iff]
  simp

theorem akeys_aset_of_not_mem (h : acontains l k = false) :
    akeys (aset l k v) = akeys l ++ [k] := by
  induction l with
  | nil => simp [aset, akeys]
  | cons p rest ih =>
    obtain ⟨k', v'⟩ := p
    by_cases hk : k' = k
    · subst hk
      simp [acontains, alookup] at h
    · simp only [aset, if_neg hk, akeys, List.map_cons]
      rw [akeys] at ih
      rw [ih (by simpa [acontains, alookup, hk] using h)]
      simp [akeys]

theorem akeys_adel_sublist (l : List (κ × β)) (k : κ) :
    (akeys (adel l k)).Sublist (akeys l) :=
  (adel_sublist l k).map Prod.fst

theorem nodup_akeys_aset (hnd : (akeys l).Nodup) (h : acontains l k = false) :
    (akeys (aset l k v)).Nodup := by
  rw [akeys_aset_of_not_mem h]
  refine List.Nodup.append hnd (List.nodup_singleton k) ?_
  intro x hx hx'
  simp only [List.mem_singleton] at hx'
  subst hx'
  exact acontains_eq_false_iff.mp h hx

theorem akeys_aset_of_mem (h : acontains l k = true) :
    akeys (aset l k v) = akeys l := by
  induction l with
  | nil => simp [acontains, alookup] at h
  | cons p rest ih =>
    obtain ⟨k', v'⟩ := p
    by_cases hk : k' = k
    · subst hk
      simp [aset, akeys]
    · simp only [aset, if_neg hk, akeys, List.map_cons]
      rw [akeys] at ih
      rw [ih (by simpa [acontains, alookup, hk] using h)]
      simp [akeys]

end AssocLemmas

/-! ## Value and tuple order lemmas -/

theorem charListLt_irrefl (a : List Char) : charListLt a a = false := by
  induction a with
  | nil => rfl
  | cons c cs ih =>
    rw [charListLt, if_neg (lt_irrefl c), if_neg (lt_irrefl c)]
    exact ih

theorem charListLt_trans {a b c : List Char} (h1 : charListLt a b = true)
    (h2 : charListLt b c = true) : charListLt a c = true := by
  induction a generalizing b c with
  | nil =>
    cases c with
    | nil =>
      cases b with
      | nil => simp [charListLt] at h1
      | cons d ds => simp [charListLt] at h2
    | cons e es => rfl
  | cons x xs ih =>
    cases b with
    | nil => simp [charListLt] at h1
    | cons y ys =>
      cases c with
      | nil => simp [charListLt] at h2
      | cons z zs =>
        rw [charListLt] at h1 h2 ⊢
        rcases lt_trichotomy x y with hxy | hxy | hxy
        · rcases lt_trichotomy y z with hyz | hyz | hyz
          · rw [if_pos (lt_trans hxy hyz)]
          · rw [← hyz, if_pos hxy]
          · rw [if_neg (asymm hyz), if_pos hyz] at h2
            cases h2
        · subst hxy
          rw [if_neg (lt_irrefl x), if_neg (lt_irrefl x)] at h1
          rcases lt_trichotomy x z with hxz | hxz | hxz
          · rw [if_pos hxz]
          · subst hxz
            rw [if_neg (lt_irrefl x), if_neg (lt_irrefl x)] at h2 ⊢
            exact ih h1 h2
          · rw [if_neg (asymm hxz), if_pos hxz] at h2
            cases h2
        · rw [if_neg (asymm hxy), if_pos hxy] at h1
          cases h1

theorem charListLt_asymm {a b : List Char} (h1 : charListLt a b = true)
    (h2 : charListLt b a = true) : False := by
  induction a generalizing b with
  | nil =>
    cases b with
    | nil => simp [charListLt] at h1
    | cons y ys => simp [charListLt] at h2
  | cons x xs ih =>
    cases b with
    | nil => simp [charListLt] at h1
    | cons y ys =>
      rw [charListLt] at h1 h2
      rcases lt_trichotomy x y with h | h | h
      · rw [if_neg (asymm h), if_pos h] at h2
        cases h2
      · subst h
        rw [if_neg (lt_irrefl x), if_neg (lt_irrefl x)] at h1 h2
        exact ih h1 h2
      · rw [if_neg (asymm h), if_pos h] at h1
        cases h1

theorem charListLt_total {a b : List Char} (h1 : charListLt a b = false)
    (h2 : a ≠ b) : charListLt b a = true := by
  induction a generalizing b with
  | nil =>
    cases b with
    | nil => exact absurd rfl h2
    | cons y ys => simp [charListLt] at h1
  | cons x xs ih =>
    cases b with
    | nil => rfl
    | cons y ys =>
      rw [charListLt] at h1 ⊢
      rcases lt_trichotomy x y with h | h | h
      · rw [if_pos h] at h1
        cases h1
      · subst h
        rw [if_neg (lt_irrefl x), if_neg (lt_irrefl x)] at h1 ⊢
        refine ih h1 ?_
        intro hh
        exact h2 (by rw [hh])
      · rw [if_pos h]

theorem pyLt_trans {a b c : Value} (h1 : pyLt a b = some true) (h2 : pyLt b c = some true) :
    pyLt a c = some true := by
  cases a <;> cases b <;> cases c <;>
    simp only [pyLt, Option.some.injEq, decide_eq_true_eq, reduceCtorEq] at h1 h2 ⊢ <;>
    first
      | exact h1.elim
      | exact h2.elim
      | omega
      | exact charListLt_trans h1 h2

theorem pyLt_asymm {a b : Value} (h1 : pyLt a b = some true) (h2 : pyLt b a = some true) :
    False := by
  cases a <;> cases b <;>
    simp only [pyLt, Option.some.injEq, decide_eq_true_eq, reduceCtorEq] at h1 h2 <;>
    first
      | exact h1.elim
      | omega
      | exact charListLt_asymm h1 h2

theorem pyLt_total {a b : Value} (h1 : pyLt a b = some false) (h2 : a ≠ b) :
    pyLt b a = some true := by
  cases a <;> cases b <;>
    simp only [pyLt, Option.some.injEq, decide_eq_true_eq, decide_eq_false_iff_not,
      reduceCtorEq, Value.int.injEq, Value.str.injEq, ne_eq] at h1 h2 ⊢ <;>
    first
      | exact h1.elim
      | omega
      | exact charListLt_total h1 (fun hd => h2 (String.ext hd))

theorem pyLt_isSome_comm {a b : Value} (h : (pyLt a b).isSome) : (pyLt b a).isSome := by
  cases a <;> cases b <;> simp_all [pyLt]

theorem pyLt_irrefl (a : Value) (h : pyLt a a = some true) : False := by
  cases a <;> simp_all [pyLt, charListLt_irrefl]

theorem tupLt_irrefl (a : Value × Value) : tupLt a a = some false := by
  simp [tupLt]

theorem tupLt_asymm {a b : Value × Value} (h1 : tupLt a b = some true)
    (h2 : tupLt b a = some true) : False := by
  unfold tupLt at h1 h2
  by_cases he : a.1 = b.1
  · rw [if_pos he] at h1
    rw [if_pos he.symm] at h2
    by_cases he2 : a.2 = b.2
    · rw [if_pos he2] at h1
      simp at h1
    · rw [if_neg he2] at h1
      rw [if_neg (fun h => he2 h.symm)] at h2
      exact pyLt_asymm h1 h2
  · rw [if_neg he] at h1
    rw [if_neg (fun h => he h.symm)] at h2
    exact pyLt_asymm h1 h2

theorem tupLt_trans {a b c : Value × Value} (h1 : tupLt a b = some true)
    (h2 : tupLt b c = some true) : tupLt a c = some true := by
  unfold tupLt at h1 h2 ⊢
  by_cases hab : a.1 = b.1
  · rw [if_pos hab] at h1
    by_cases hab2 : a.2 = b.2
    · rw [if_pos hab2] at h1
      simp at h1
    · rw [if_neg hab2] at h1
      by_cases hbc : b.1 = c.1
      · rw [if_pos hbc] at h2
        by_cases hbc2 : b.2 = c.2
        · rw [if_pos hbc2] at h2
          simp at h2
        · rw [if_neg hbc2] at h2
          rw [if_pos (hab.trans hbc)]
          have hac2 : a.2 ≠ c.2 := by
            intro he
            exact pyLt_asymm h1 (he ▸ h2)
          rw [if_neg hac2]
          exact pyLt_trans h1 h2
      · rw [if_neg hbc] at h2
        have hac : a.1 ≠ c.1 := fun he => hbc (hab ▸ he)
        rw [if_neg hac, hab]
        exact h2
  · rw [if_neg hab] at h1
    by_cases hbc : b.1 = c.1
    · rw [if_pos hbc] at h2
      have hac : a.1 ≠ c.1 := fun he => hab (he.trans hbc.symm)
      rw [if_neg hac, ← hbc]
      exact h1
    · rw [if_neg hbc] at h2
      have hac : a.1 ≠ c.1 := by
        intro he
        exact pyLt_asymm h1 (he ▸ h2)
      rw [if_neg hac]
      exact pyLt_trans h1 h2

theorem tupLt_total {a b : Value × Value} (h1 : tupLt a b = some false) (h2 : a ≠ b) :
    tupLt b a = some true := by
  unfold tupLt at h1 ⊢
  by_cases hab : a.1 = b.1
  · rw [if_pos hab] at h1
    rw [if_pos hab.symm]
    by_cases hab2 : a.2 = b.2
    · exact absurd (Prod.ext hab hab2) h2
    · rw [if_neg hab2] at h1
      rw [if_neg (fun h => hab2 h.symm)]
      exact pyLt_total h1 hab2
  · rw [if_neg hab] at h1
    rw [if_neg (fun h => hab h.symm)]
    exact pyLt_total h1 hab

/-! ## Hash index lemmas -/

theorem alookup_hashInsert (b : HashBuckets) (pk v w : Value) :
    alookup (hashInsert b pk v) w =
      if w = v then
        some (if pk ∈ hashSearch b v then hashSearch b v else hashSearch b v ++ [pk])
      else alookup b w := by
  induction b with
  | nil =>
    by_cases hw : w = v
    · subst hw
      simp [hashInsert, hashSearch, alookup]
    · rw [hashInsert, if_neg hw, alookup_cons, if_neg (fun h => hw h.symm)]
  | cons p rest ih =>
    obtain ⟨u, pks⟩ := p
    by_cases hu : u = v
    · subst hu
      rw [hashInsert, if_pos rfl, alookup_cons, alookup_cons]
      by_cases hw : u = w
      · subst hw
        rw [if_pos rfl, if_pos rfl, hashSearch, alookup_cons, if_pos rfl]
        simp
      · rw [if_neg hw, if_neg hw, if_neg (fun h => hw (Eq.symm h))]
    · rw [hashInsert, if_neg hu, alookup_cons]
      by_cases hw : u = w
      · subst hw
        rw [if_neg hu, alookup_cons, if_pos rfl]
        simp
      · rw [if_neg hw, alookup_cons, if_neg hw, ih]
        by_cases hwv : w = v
        · subst hwv
          rw [if_pos rfl, if_pos rfl, hashSearch, hashSearch, alookup_cons,
            if_neg hw]
        · rw [if_neg hwv, if_neg hwv]

theorem hashSearch_hashInsert (b : HashBuckets) (pk v w : Value) :
    hashSearch (hashInsert b pk v) w =
      if w = v then
        (if pk ∈ hashSearch b v then hashSearch b v else hashSearch b v ++ [pk])
      else hashSearch b w := by
  rw [hashSearch, alookup_hashInsert]
  by_cases hw : w = v
  · rw [if_pos hw, if_pos hw]
    simp
  · rw [if_neg hw, if_neg hw, hashSearch]

theorem alookup_hashDelete {b : HashBuckets} (hnd : (b.map Prod.fst).Nodup)
    (pk v w : Value) :
    alookup (hashDelete b pk v) w =
      if w = v then
        (match alookup b v with
          | Option.none => Option.none
          | some pks => if pks.erase pk = [] then Option.none else some (pks.erase pk))
      else alookup b w := by
  induction b with
  | nil =>
    by_cases hw : w = v
    · rw [hashDelete, if_pos hw]
      rfl
    · rw [hashDelete, if_neg hw]
  | cons p rest ih =>
    obtain ⟨u, pks⟩ := p
    simp only [List.map_cons, List.nodup_cons] at hnd
    have hrest := ih hnd.2
    rw [hashDelete]
    by_cases hu : u = v
    · subst hu
      rw [if_pos rfl]
      by_cases he : pks.erase pk = []
      · rw [if_pos he]
        by_cases hw : w = u
        · subst hw
          rw [if_pos rfl, alookup_cons, if_pos rfl, alookup_eq_none_of_not_mem hnd.1]
          simp [he]
        · rw [if_neg hw, alookup_cons, if_neg (fun h => hw h.symm)]
      · rw [if_neg he]
        by_cases hw : w = u
        · subst hw
          rw [alookup_cons, if_pos rfl, if_pos rfl, alookup_cons, if_pos rfl]
          simp [he]
        · rw [alookup_cons, if_neg (fun h => hw h.symm), if_neg hw, alookup_cons,
            if_neg (fun h => hw h.symm)]
    · rw [if_neg hu]
      by_cases hw : w = u
      · subst hw
        rw [if_neg hu]
        rw [alookup_cons, if_pos rfl, alookup_cons, if_pos rfl]
      · rw [alookup_cons, if_neg (fun h => hw h.symm), hrest]
        by_cases hwv : w = v
        · rw [if_pos hwv, if_pos hwv]
          have hlv : alookup ((u, pks) :: rest) v = alookup rest v := by
            rw [alookup_cons, if_neg hu]
          rw [hlv]
        · rw [if_neg hwv, if_neg hwv, alookup_cons, if_neg (fun h => hw h.symm)]

theorem hashSearch_hashDelete {b : HashBuckets} (hnd : (b.map Prod.fst).Nodup)
    (pk v w : Value) :
    hashSearch (hashDelete b pk v) w =
      if w = v then (hashSearch b v).erase pk else hashSearch b w := by
  rw [hashSearch, alookup_hashDelete hnd]
  by_cases hw : w = v
  · rw [if_pos hw, if_pos hw, hashSearch]
    cases hl : alookup b v with
    | none => simp
    | some pks =>
      by_cases he : pks.erase pk = [] <;> simp [he]
  · rw [if_neg hw, if_neg hw, hashSearch]

theorem acontains_cons {κ β : Type} [DecidableEq κ] (p : κ × β) (rest : List (κ × β)) (a : κ) :
    acontains (p :: rest) a = (decide (p.1 = a) || acontains rest a) := by
  rw [acontains, alookup_cons]
  by_cases h : p.1 = a <;> simp [h, acontains]

theorem akeys_hashInsert (b : HashBuckets) (pk v : Value) :
    (hashInsert b pk v).map Prod.fst =
      if acontains b v then b.map Prod.fst else b.map Prod.fst ++ [v] := by
  induction b with
  | nil => simp [hashInsert, acontains, alookup]
  | cons p rest ih =>
    obtain ⟨u, pks⟩ := p
    rw [acontains_cons]
    by_cases hu : u = v
    · subst hu
      rw [hashInsert, if_pos rfl]
      simp
    · rw [hashInsert, if_neg hu]
      simp only [List.map_cons]
      rw [ih]
      by_cases hc : acontains rest v
      · simp [hc, hu]
      · simp [hc, hu]

theorem hashInsert_keys_nodup {b : HashBuckets} (hnd : (b.map Prod.fst).Nodup)
    (pk v : Value) : ((hashInsert b pk v).map Prod.fst).Nodup := by
  rw [akeys_hashInsert]
  by_cases hc : acontains b v
  · simpa [hc] using hnd
  · rw [if_neg (by simp [hc])]
    refine List.Nodup.append hnd (List.nodup_singleton v) ?_
    intro x hx hx'
    simp only [List.mem_singleton] at hx'
    subst hx'
    exact absurd (acontains_eq_true_iff.mpr hx) (by simp [hc])

theorem hashDelete_keys_sublist (b : HashBuckets) (pk v : Value) :
    ((hashDelete b pk v).map Prod.fst).Sublist (b.map Prod.fst) := by
  induction b with
  | nil => simp [hashDelete]
  | cons p rest ih =>
    obtain ⟨u, pks⟩ := p
    by_cases hu : u = v
    · subst hu
      rw [hashDelete, if_pos rfl]
      by_cases he : pks.erase pk = []
      · rw [if_pos he]
        simp only [List.map_cons]
        exact List.sublist_cons_self _ _
      · rw [if_neg he]
        simp only [List.map_cons]
        exact List.Sublist.refl _
    · rw [hashDelete, if_neg hu]
      simp only [List.map_cons]
      exact ih.cons₂ _

theorem hashInsert_pks_nodup {b : HashBuckets}
    (h : ∀ p, p ∈ b → (p.2 : List Value).Nodup)
    (pk v : Value) : ∀ p, p ∈ hashInsert b pk v → (p.2 : List Value).Nodup := by
  induction b with
  | nil =>
    intro p hp
    rw [hashInsert] at hp
    simp only [List.mem_singleton] at hp
    subst hp
    simp
  | cons q rest ih =>
    obtain ⟨u, pks⟩ := q
    intro p hp
    by_cases hu : u = v
    · subst hu
      rw [hashInsert, if_pos rfl] at hp
      rcases List.mem_cons.mp hp with hp | hp
      · subst hp
        show (if pk ∈ pks then pks else pks ++ [pk]).Nodup
        by_cases hm : pk ∈ pks
        · rw [if_pos hm]
          exact h _ (List.mem_cons_self _ _)
        · rw [if_neg hm]
          refine List.Nodup.append (h _ (List.mem_cons_self _ _))
            (List.nodup_singleton pk) ?_
          intro x hx hx'
          simp only [List.mem_singleton] at hx'
          subst hx'
          exact hm hx
      · exact h _ (List.mem_cons_of_mem _ hp)
    · rw [hashInsert, if_neg hu] at hp
      rcases List.mem_cons.mp hp with hp | hp
      · subst hp
        exact h _ (List.mem_cons_self _ _)
      · exact ih (fun q hq => h q (List.mem_cons_of_mem _ hq)) p hp

theorem hashDelete_pks_nodup {b : HashBuckets}
    (h : ∀ p, p ∈ b → (p.2 : List Value).Nodup)
    (pk v : Value) : ∀ p, p ∈ hashDelete b pk v → (p.2 : List Value).Nodup := by
  induction b with
  | nil =>
    intro p hp
    rw [hashDelete] at hp
    simp at hp
  | cons q rest ih =>
    obtain ⟨u, pks⟩ := q
    intro p hp
    by_cases hu : u = v
    · subst hu
      rw [hashDelete, if_pos rfl] at hp
      by_cases he : pks.erase pk = []
      · rw [if_pos he] at hp
        exact h _ (List.mem_cons_of_mem _ hp)
      · rw [if_neg he] at hp
        rcases List.mem_cons.mp hp with hp | hp
        · subst hp
          exact (h _ (List.mem_cons_self _ _)).erase pk
        · exact h _ (List.mem_cons_of_mem _ hp)
    · rw [hashDelete, if_neg hu] at hp
      rcases List.mem_cons.mp hp with hp | hp
      · subst hp
        exact h _ (List.mem_cons_self _ _)
      · exact ih (fun q hq => h q (List.mem_cons_of_mem _ hq)) p hp

theorem hashSearch_pks_nodup {b : HashBuckets} (h : ∀ p, p ∈ b → (p.2 : List Value).Nodup)
    (v : Value) : (hashSearch b v).Nodup := by
  unfold hashSearch
  cases hl : alookup b v with
  | none => simp
  | some pks => exact h (v, pks) (alookup_mem hl)

/-! ## Sorted index lemmas -/

theorem pairwise_mem_rel {α : Type} {R : α → α → Prop} {l : List α} (h : l.Pairwise R)
    {a b : α} (ha : a ∈ l) (hb : b ∈ l) : a = b ∨ R a b ∨ R b a := by
  induction l with
  | nil => simp at ha
  | cons x xs ih =>
    rcases List.pairwise_cons.mp h with ⟨hx, hxs⟩
    rcases List.mem_cons.mp ha with ha' | ha'
    · rcases List.mem_cons.mp hb with hb' | hb'
      · exact Or.inl (ha'.trans hb'.symm)
      · exact Or.inr (Or.inl (ha' ▸ hx b hb'))
    · rcases List.mem_cons.mp hb with hb' | hb'
      · exact Or.inr (Or.inr (hb' ▸ hx a ha'))
      · exact ih hxs ha' hb'

theorem sortedAdd_mem {e : SortedEntries} {x : Value × Value} {e' : SortedEntries}
    (h : sortedAdd e x = some e') : ∀ y, y ∈ e' ↔ y ∈ e ∨ y = x := by
  induction e generalizing e' with
  | nil =>
    rw [sortedAdd] at h
    simp only [Option.some.injEq] at h
    subst h
    simp
  | cons z rest ih =>
    rw [sortedAdd] at h
    cases ht : tupLt x z with
    | none => rw [ht] at h; exact absurd h (by simp)
    | some b =>
      rw [ht] at h
      cases b with
      | true =>
        simp only [Option.some.injEq] at h
        subst h
        intro y
        simp only [List.mem_cons]
        tauto
      | false =>
        cases hs : sortedAdd rest x with
        | none => rw [hs] at h; exact absurd h (by simp)
        | some e'' =>
          rw [hs] at h
          simp only [Option.map_some', Option.some.injEq] at h
          subst h
          intro y
          simp only [List.mem_cons, ih hs y]
          tauto

theorem sortedAdd_pairwise {e : SortedEntries} {x : Value × Value} {e' : SortedEntries}
    (hp : e.Pairwise (fun a b => tupLt a b = some true)) (hx : x ∉ e)
    (h : sortedAdd e x = some e') : e'.Pairwise (fun a b => tupLt a b = some true) := by
  induction e generalizing e' with
  | nil =>
    rw [sortedAdd] at h
    simp only [Option.some.injEq] at h
    subst h
    simp
  | cons z rest ih =>
    rcases List.pairwise_cons.mp hp with ⟨hz, hrest⟩
    rw [sortedAdd] at h
    cases ht : tupLt x z with
    | none => rw [ht] at h; exact absurd h (by simp)
    | some b =>
      rw [ht] at h
      cases b with
      | true =>
        simp only [Option.some.injEq] at h
        subst h
        refine List.pairwise_cons.mpr ⟨?_, hp⟩
        intro y hy
        rcases List.mem_cons.mp hy with hy' | hy'
        · exact hy' ▸ ht
        · exact tupLt_trans ht (hz y hy')
      | false =>
        cases hs : sortedAdd rest x with
        | none => rw [hs] at h; exact absurd h (by simp)
        | some e'' =>
          rw [hs] at h
          simp only [Option.map_some', Option.some.injEq] at h
          subst h
          refine List.pairwise_cons.mpr ⟨?_, ?_⟩
          · intro y hy
            rcases (sortedAdd_mem hs y).mp hy with hy' | hy'
            · exact hz y hy'
            · subst hy'
              exact tupLt_total ht (fun he => hx (by simp [he]))
          · exact ih hrest (fun hm => hx (List.mem_cons_of_mem _ hm)) hs

theorem sortedDiscard_sublist {e : SortedEntries} {x : Value × Value} {e' : SortedEntries}
    (h : sortedDiscard e x = some e') : e'.Sublist e := by
  induction e generalizing e' with
  | nil =>
    rw [sortedDiscard] at h
    simp only [Option.some.injEq] at h
    subst h
    simp
  | cons z rest ih =>
    rw [sortedDiscard] at h
    cases ht : tupLt z x with
    | none => rw [ht] at h; exact absurd h (by simp)
    | some b =>
      rw [ht] at h
      cases b with
      | true =>
        cases hs : sortedDiscard rest x with
        | none => rw [hs] at h; exact absurd h (by simp)
        | some e'' =>
          rw [hs] at h
          simp only [Option.map_some', Option.some.injEq] at h
          subst h
          exact (ih hs).cons₂ _
      | false =>
        by_cases hz : z = x
        · rw [if_pos hz] at h
          simp only [Option.some.injEq] at h
          subst h
          exact List.sublist_cons_self _ _
        · rw [if_neg hz] at h
          simp only [Option.some.injEq] at h
          subst h
          exact List.Sublist.refl _

theorem sortedDiscard_mem {e : SortedEntries} {x : Value × Value} {e' : SortedEntries}
    (hp : e.Pairwise (fun a b => tupLt a b = some true))
    (h : sortedDiscard e x = some e') : ∀ y, y ∈ e' ↔ y ∈ e ∧ y ≠ x := by
  induction e generalizing e' with
  | nil =>
    rw [sortedDiscard] at h
    simp only [Option.some.injEq] at h
    subst h
    simp
  | cons z rest ih =>
    rcases List.pairwise_cons.mp hp with ⟨hz, hrest⟩
    rw [sortedDiscard] at h
    cases ht : tupLt z x with
    | none => rw [ht] at h; exact absurd h (by simp)
    | some b =>
      rw [ht] at h
      cases b with
      | true =>
        cases hs : sortedDiscard rest x with
        | none => rw [hs] at h; exact absurd h (by simp)
        | some e'' =>
          rw [hs] at h
          simp only [Option.map_some', Option.some.injEq] at h
          subst h
          intro y
          have hzx : z ≠ x := by
            intro he
            subst he
            exact absurd (tupLt_irrefl z ▸ ht) (by simp)
          simp only [List.mem_cons, ih hrest hs y]
          constructor
          · rintro (hy | ⟨hy, hyx⟩)
            · exact ⟨Or.inl hy, hy ▸ hzx⟩
            · exact ⟨Or.inr hy, hyx⟩
          · rintro ⟨hy | hy, hyx⟩
            · exact Or.inl hy
            · exact Or.inr ⟨hy, hyx⟩
      | false =>
        by_cases hzx : z = x
        · rw [if_pos hzx] at h
          simp only [Option.some.injEq] at h
          subst h
          subst hzx
          intro y
          constructor
          · intro hy
            refine ⟨List.mem_cons_of_mem _ hy, ?_⟩
            intro he
            subst he
            exact absurd (tupLt_irrefl y ▸ hz y hy) (by simp)
          · rintro ⟨hy, hyx⟩
            rcases List.mem_cons.mp hy with hy' | hy'
            · exact absurd hy' hyx
            · exact hy'
        · rw [if_neg hzx] at h
          simp only [Option.some.injEq] at h
          subst h
          intro y
          have hxr : x ∉ z :: rest := by
            intro hmem
            rcases List.mem_cons.mp hmem with hm | hm
            · exact hzx hm.symm
            · exact absurd (hz x hm) (by
                intro hzx'
                exact tupLt_asymm hzx' (tupLt_total ht hzx))
          constructor
          · intro hy
            exact ⟨hy, fun he => hxr (he ▸ hy)⟩
          · rintro ⟨hy, _⟩
            exact hy

theorem sortedSearch_spec {e : SortedEntries} {v : Value} {pks : List Value}
    (hp : e.Pairwise (fun a b => tupLt a b = some true))
    (h : sortedSearch e v = some pks) : ∀ pk, pk ∈ pks ↔ (v, pk) ∈ e := by
  induction e generalizing pks with
  | nil =>
    rw [sortedSearch] at h
    simp only [Option.some.injEq] at h
    subst h
    simp
  | cons z rest ih =>
    obtain ⟨w, q⟩ := z
    rcases List.pairwise_cons.mp hp with ⟨hz, hrest⟩
    rw [sortedSearch] at h
    by_cases hw : w = v
    · rw [if_pos hw] at h
      cases hs : sortedSearch rest v with
      | none => rw [hs] at h; exact absurd h (by simp)
      | some pks' =>
        rw [hs] at h
        simp only [Option.map_some', Option.some.injEq] at h
        subst h
        intro pk
        simp only [List.mem_cons, ih hrest hs pk, Prod.mk.injEq]
        subst hw
        tauto
    · rw [if_neg hw] at h
      cases hlt : pyLt v w with
      | none => rw [hlt] at h; exact absurd h (by simp)
      | some b =>
        rw [hlt] at h
        cases b with
        | true =>
          simp only [Option.some.injEq] at h
          subst h
          intro pk
          simp only [List.not_mem_nil, false_iff, List.mem_cons, Prod.mk.injEq]
          rintro (⟨he, _⟩ | hmem)
          · exact hw he.symm
          · have := hz (v, pk) hmem
            rw [tupLt] at this
            by_cases hwv : w = v
            · exact hw hwv
            · rw [if_neg (by simpa using hwv)] at this
              simp only at this
              exact pyLt_asymm hlt this
        | false =>
          intro pk
          rw [ih hrest h pk, List.mem_cons]
          constructor
          · exact Or.inr
          · rintro (he | hmem)
            · exact absurd (congrArg Prod.fst he).symm hw
            · exact hmem

theorem sortedSearch_isSome {e : SortedEntries} {v : Value}
    (hp : e.Pairwise (fun a b => tupLt a b = some true))
    (hcompat : ∀ z, z ∈ e → z.1 = v ∨ (pyLt v z.1).isSome) :
    (sortedSearch e v).isSome := by
  induction e with
  | nil => simp [sortedSearch]
  | cons z rest ih =>
    obtain ⟨w, q⟩ := z
    rcases List.pairwise_cons.mp hp with ⟨_, hrest⟩
    rw [sortedSearch]
    by_cases hw : w = v
    · rw [if_pos hw]
      have := ih hrest (fun z hz => hcompat z (List.mem_cons_of_mem _ hz))
      cases hs : sortedSearch rest v with
      | none => rw [hs] at this; simp at this
      | some pks => simp
    · rw [if_neg hw]
      have hc := hcompat (w, q) (List.mem_cons_self _ _)
      simp only at hc
      rcases hc with hc | hc
      · exact absurd hc hw
      · cases hlt : pyLt v w with
        | none => rw [hlt] at hc; simp at hc
        | some b =>
          cases b with
          | true => simp
          | false =>
            exact ih hrest (fun z hz => hcompat z (List.mem_cons_of_mem _ hz))

theorem sortedSearch_nodup {e : SortedEntries} {v : Value} {pks : List Value}
    (hp : e.Pairwise (fun a b => tupLt a b = some true))
    (h : sortedSearch e v = some pks) : pks.Nodup := by
  induction e generalizing pks with
  | nil =>
    rw [sortedSearch] at h
    simp only [Option.some.injEq] at h
    subst h
    simp
  | cons z rest ih =>
    obtain ⟨w, q⟩ := z
    rcases List.pairwise_cons.mp hp with ⟨hz, hrest⟩
    rw [sortedSearch] at h
    by_cases hw : w = v
    · rw [if_pos hw] at h
      cases hs : sortedSearch rest v with
      | none => rw [hs] at h; exact absurd h (by simp)
      | some pks' =>
        rw [hs] at h
        simp only [Option.map_some', Option.some.injEq] at h
        subst h
        refine List.nodup_cons.mpr ⟨?_, ih hrest hs⟩
        intro hq
        have := (sortedSearch_spec hrest hs q).mp hq
        subst hw
        exact absurd (tupLt_irrefl (w, q) ▸ hz (w, q) this) (by simp)
    · rw [if_neg hw] at h
      cases hlt : pyLt v w with
      | none => rw [hlt] at h; exact absurd h (by simp)
      | some b =>
        rw [hlt] at h
        cases b with
        | true =>
          simp only [Option.some.injEq] at h
          subst h
          simp
        | false => exact ih hrest h

/-! ## Index-wrapper lemmas -/

theorem idxMem_idxInsert {i i' : Index} {pk v : Value}
    (h : idxInsert i pk v = some i') (w pk' : Value) :
    idxMem i' w pk' ↔ (w = v ∧ pk' = pk) ∨ idxMem i w pk' := by
  cases i with
  | hash b =>
    rw [idxInsert] at h
    simp only [Option.some.injEq] at h
    subst h
    rw [idxMem, idxMem, hashSearch_hashInsert]
    by_cases hw : w = v
    · subst hw
      rw [if_pos rfl]
      by_cases hm : pk ∈ hashSearch b w
      · rw [if_pos hm]
        constructor
        · exact fun h' => Or.inr h'
        · rintro (⟨_, h'⟩ | h')
          · exact h' ▸ hm
          · exact h'
      · rw [if_neg hm]
        simp only [List.mem_append, List.mem_singleton]
        tauto
    · rw [if_neg hw]
      simp [hw]
  | sorted e =>
    rw [idxInsert] at h
    cases hs : sortedAdd e (v, pk) with
    | none => rw [hs] at h; exact absurd h (by simp)
    | some e'' =>
      rw [hs] at h
      simp only [Option.map_some', Option.some.injEq] at h
      subst h
      rw [idxMem, idxMem, sortedAdd_mem hs (w, pk')]
      simp only [Prod.mk.injEq]
      tauto

theorem idxInsert_wf {i i' : Index} {pk v : Value} (hwf : IdxWF i)
    (hnm : ¬ idxMem i v pk) (h : idxInsert i pk v = some i') : IdxWF i' := by
  cases i with
  | hash b =>
    rw [idxInsert] at h
    simp only [Option.some.injEq] at h
    subst h
    rw [IdxWF] at hwf ⊢
    exact ⟨hashInsert_keys_nodup hwf.1 pk v, hashInsert_pks_nodup hwf.2 pk v⟩
  | sorted e =>
    rw [idxInsert] at h
    cases hs : sortedAdd e (v, pk) with
    | none => rw [hs] at h; exact absurd h (by simp)
    | some e'' =>
      rw [hs] at h
      simp only [Option.map_some', Option.some.injEq] at h
      subst h
      rw [IdxWF] at hwf ⊢
      exact sortedAdd_pairwise hwf (fun hm => hnm hm) hs

theorem idxMem_idxDelete {i i' : Index} {pk v : Value} (hwf : IdxWF i)
    (h : idxDelete i pk v = some i') (w pk' : Value) :
    idxMem i' w pk' ↔ idxMem i w pk' ∧ ¬(w = v ∧ pk' = pk) := by
  cases i with
  | hash b =>
    rw [idxDelete] at h
    simp only [Option.some.injEq] at h
    subst h
    rw [IdxWF] at hwf
    rw [idxMem, idxMem, hashSearch_hashDelete hwf.1]
    by_cases hw : w = v
    · subst hw
      rw [if_pos rfl]
      rw [List.Nodup.mem_erase_iff (hashSearch_pks_nodup hwf.2 w)]
      constructor
      · rintro ⟨hne, hm⟩
        exact ⟨hm, fun ⟨_, he⟩ => hne he⟩
      · rintro ⟨hm, hne⟩
        exact ⟨fun he => hne ⟨rfl, he⟩, hm⟩
    · rw [if_neg hw]
      simp [hw]
  | sorted e =>
    rw [idxDelete] at h
    cases hs : sortedDiscard e (v, pk) with
    | none => rw [hs] at h; exact absurd h (by simp)
    | some e'' =>
      rw [hs] at h
      simp only [Option.map_some', Option.some.injEq] at h
      subst h
      rw [IdxWF] at hwf
      rw [idxMem, idxMem, sortedDiscard_mem hwf hs (w, pk')]
      simp only [Prod.mk.injEq, ne_eq]

theorem idxDelete_wf {i i' : Index} {pk v : Value} (hwf : IdxWF i)
    (h : idxDelete i pk v = some i') : IdxWF i' := by
  cases i with
  | hash b =>
    rw [idxDelete] at h
    simp only [Option.some.injEq] at h
    subst h
    rw [IdxWF] at hwf ⊢
    exact ⟨(hashDelete_keys_sublist b pk v).nodup hwf.1, hashDelete_pks_nodup hwf.2 pk v⟩
  | sorted e =>
    rw [idxDelete] at h
    cases hs : sortedDiscard e (v, pk) with
    | none => rw [hs] at h; exact absurd h (by simp)
    | some e'' =>
      rw [hs] at h
      simp only [Option.map_some', Option.some.injEq] at h
      subst h
      rw [IdxWF] at hwf ⊢
      exact List.Pairwise.sublist (sortedDiscard_sublist hs) hwf

theorem idxUpdate_ok_mem {i i' : Index} {pk oldv newv : Value} (hwf : IdxWF i)
    (h : idxUpdate i pk oldv newv = (i', true)) (w pk' : Value) :
    idxMem i' w pk' ↔
      (w = newv ∧ pk' = pk) ∨ (idxMem i w pk' ∧ ¬(w = oldv ∧ pk' = pk)) := by
  cases i with
  | hash b =>
    rw [idxUpdate] at h
    simp only [Prod.mk.injEq] at h
    have hi : i' = .hash (hashUpdate b pk oldv newv) := h.1.symm
    subst hi
    rw [hashUpdate]
    have hdel : idxDelete (.hash b) pk oldv = some (.hash (hashDelete b pk oldv)) := rfl
    have hins : idxInsert (.hash (hashDelete b pk oldv)) pk newv =
        some (.hash (hashInsert (hashDelete b pk oldv) pk newv)) := rfl
    rw [show idxMem (Index.hash (hashInsert (hashDelete b pk oldv) pk newv)) w pk' ↔
        (w = newv ∧ pk' = pk) ∨ idxMem (Index.hash (hashDelete b pk oldv)) w pk' from
      idxMem_idxInsert hins w pk']
    rw [idxMem_idxDelete hwf hdel w pk']
  | sorted e =>
    rw [idxUpdate] at h
    cases hs : sortedDiscard e (oldv, pk) with
    | none => rw [hs] at h; simp at h
    | some e1 =>
      rw [hs] at h
      dsimp only at h
      cases ha : sortedAdd e1 (newv, pk) with
      | none => rw [ha] at h; simp at h
      | some e2 =>
        rw [ha] at h
        dsimp only at h
        simp only [Prod.mk.injEq] at h
        have hi : i' = .sorted e2 := h.1.symm
        subst hi
        rw [idxMem, idxMem, sortedAdd_mem ha (w, pk'),
          sortedDiscard_mem hwf hs (w, pk')]
        constructor
        · rintro (⟨hme, hne⟩ | he)
          · refine Or.inr ⟨hme, ?_⟩
            rintro ⟨h1, h2⟩
            exact hne (by rw [h1, h2])
          · exact Or.inl ⟨(Prod.ext_iff.mp he).1, (Prod.ext_iff.mp he).2⟩
        · rintro (⟨h1, h2⟩ | ⟨hme, hne⟩)
          · subst h1
            subst h2
            exact Or.inr rfl
          · refine Or.inl ⟨hme, ?_⟩
            intro he
            exact hne ⟨(Prod.ext_iff.mp he).1, (Prod.ext_iff.mp he).2⟩

theorem idxUpdate_ok_wf {i i' : Index} {pk oldv newv : Value} (hwf : IdxWF i)
    (hnm : ¬ idxMem i newv pk) (h : idxUpdate i pk oldv newv = (i', true)) :
    IdxWF i' := by
  cases i with
  | hash b =>
    rw [idxUpdate] at h
    simp only [Prod.mk.injEq] at h
    have hi : i' = .hash (hashUpdate b pk oldv newv) := h.1.symm
    subst hi
    rw [IdxWF] at hwf ⊢
    rw [hashUpdate]
    refine ⟨hashInsert_keys_nodup ((hashDelete_keys_sublist b pk oldv).nodup hwf.1) _ _,
      hashInsert_pks_nodup (hashDelete_pks_nodup hwf.2 pk oldv) _ _⟩
  | sorted e =>
    rw [idxUpdate] at h
    cases hs : sortedDiscard e (oldv, pk) with
    | none => rw [hs] at h; simp at h
    | some e1 =>
      rw [hs] at h
      dsimp only at h
      cases ha : sortedAdd e1 (newv, pk) with
      | none => rw [ha] at h; simp at h
      | some e2 =>
        rw [ha] at h
        dsimp only at h
        simp only [Prod.mk.injEq] at h
        have hi : i' = .sorted e2 := h.1.symm
        subst hi
        rw [IdxWF] at hwf ⊢
        have hp1 : e1.Pairwise (fun a b => tupLt a b = some true) :=
          List.Pairwise.sublist (sortedDiscard_sublist hs) hwf
        refine sortedAdd_pairwise hp1 ?_ ha
        intro hm
        exact hnm ((sortedDiscard_mem hwf hs _).mp hm).1

theorem idxSearch_spec {i : Index} {v : Value} {pks : List Value} (hwf : IdxWF i)
    (h : idxSearch i v = some pks) : ∀ pk, pk ∈ pks ↔ idxMem i v pk := by
  cases i with
  | hash b =>
    rw [idxSearch] at h
    simp only [Option.some.injEq] at h
    subst h
    intro pk
    rw [idxMem]
  | sorted e =>
    rw [idxSearch] at h
    rw [IdxWF] at hwf
    intro pk
    rw [idxMem]
    exact sortedSearch_spec hwf h pk

theorem idxSearch_isSome_of_mem {i : Index} {v pk : Value} (hwf : IdxWF i)
    (hm : idxMem i v pk) : (idxSearch i v).isSome := by
  cases i with
  | hash b => simp [idxSearch]
  | sorted e =>
    rw [idxSearch]
    rw [IdxWF] at hwf
    rw [idxMem] at hm
    refine sortedSearch_isSome hwf ?_
    intro z hz
    rcases pairwise_mem_rel hwf hm hz with he | hlt | hlt
    · exact Or.inl (congrArg Prod.fst he).symm
    · rw [tupLt] at hlt
      by_cases hz1 : (v, pk).1 = z.1
      · exact Or.inl (by simpa using hz1.symm)
      · rw [if_neg hz1] at hlt
        simp only at hlt
        exact Or.inr (by simp [hlt])
    · rw [tupLt] at hlt
      by_cases hz1 : z.1 = (v, pk).1
      · exact Or.inl (by simpa using hz1)
      · rw [if_neg hz1] at hlt
        simp only at hlt
        exact Or.inr (pyLt_isSome_comm (by simp [hlt]))

theorem idxSearch_nodup {i : Index} {v : Value} {pks : List Value} (hwf : IdxWF i)
    (h : idxSearch i v = some pks) : pks.Nodup := by
  cases i with
  | hash b =>
    rw [idxSearch] at h
    simp only [Option.some.injEq] at h
    subst h
    rw [IdxWF] at hwf
    exact hashSearch_pks_nodup hwf.2 v
  | sorted e =>
    rw [idxSearch] at h
    rw [IdxWF] at hwf
    exact sortedSearch_nodup hwf h

/-! ## Record and key-computation lemmas -/

theorem alookup_rset_self (r : Record) (f : String) (v : Value) :
    alookup (rset r f v) f = some v := by
  rw [rset, alookup_aset, if_pos rfl]

theorem alookup_rset_ne {f f' : String} (r : Record) (v : Value) (h : f ≠ f') :
    alookup (rset r f v) f' = alookup r f' := by
  rw [rset, alookup_aset, if_neg h]

theorem alookup_eq_rget_of_rhas {r : Record} {f : String} (h : rhas r f = true) :
    alookup r f = some (rget r f) := by
  rw [rhas, acontains] at h
  cases hl : alookup r f with
  | none => rw [hl] at h; simp at h
  | some v => rw [rget, hl]; rfl

theorem rget_eq_of_alookup {r : Record} {f : String} {v : Value}
    (h : alookup r f = some v) : rget r f = v := by
  rw [rget, h]
  rfl

theorem alookup_rmerge_not_mem {changes : Record} {f : String}
    (h : acontains changes f = false) (r : Record) :
    alookup (rmerge r changes) f = alookup r f := by
  induction changes generalizing r with
  | nil => rfl
  | cons p cs ih =>
    rw [acontains_cons] at h
    simp only [Bool.or_eq_false_iff, decide_eq_false_iff_not] at h
    show alookup (rmerge (rset r p.1 p.2) cs) f = alookup r f
    rw [ih h.2, alookup_rset_ne r p.2 h.1]

theorem pyMax_int_bound {xs : List Value} {x m : Value} {n : Int}
    (h : pyMax x xs = some m) (hm : m = .int n) :
    (∃ j : Int, x = .int j ∧ j ≤ n) ∧ ∀ y ∈ xs, ∃ j : Int, y = .int j ∧ j ≤ n := by
  induction xs generalizing x with
  | nil =>
    rw [pyMax, List.foldlM_nil] at h
    simp only [Option.pure_def, Option.some.injEq] at h
    subst h
    subst hm
    exact ⟨⟨n, rfl, le_refl n⟩, by simp⟩
  | cons v vs ih =>
    rw [pyMax, List.foldlM_cons] at h
    cases hlt : pyLt x v with
    | none => rw [hlt] at h; exact absurd h (by simp)
    | some b =>
      rw [hlt] at h
      simp only [Option.map_some', Option.bind_eq_bind, Option.some_bind] at h
      have hrec := ih (x := if b then v else x) h
      rcases hrec with ⟨⟨j, hj, hjn⟩, hall⟩
      have hxv : ∃ a c : Int, x = .int a ∧ v = .int c := by
        cases x <;> cases v <;>
          first
            | exact ⟨_, _, rfl, rfl⟩
            | (exfalso
               by_cases hb : b = true
               · rw [if_pos hb] at hj
                 cases hj
               · rw [if_neg hb] at hj
                 cases hj)
            | (exact absurd hlt (by simp [pyLt]))
      obtain ⟨a, c, ha, hc⟩ := hxv
      subst ha
      subst hc
      rw [pyLt] at hlt
      simp only [Option.some.injEq] at hlt
      subst hlt
      have hkey : (if decide (a < c) = true then Value.int c else Value.int a) =
          Value.int j := hj
      constructor
      · by_cases hab : a < c
        · refine ⟨a, rfl, ?_⟩
          rw [if_pos (by simp [hab])] at hkey
          simp only [Value.int.injEq] at hkey
          omega
        · rw [if_neg (by simp [hab])] at hkey
          simp only [Value.int.injEq] at hkey
          exact ⟨a, rfl, by omega⟩
      · intro y hy
        rcases List.mem_cons.mp hy with hy' | hy'
        · subst hy'
          by_cases hab : a < c
          · rw [if_pos (by simp [hab])] at hkey
            simp only [Value.int.injEq] at hkey
            exact ⟨c, rfl, by omega⟩
          · rw [if_neg (by simp [hab])] at hkey
            simp only [Value.int.injEq] at hkey
            exact ⟨c, rfl, by omega⟩
        · exact hall y hy'

/-! ## Schema validation lemmas -/

theorem checkDeclared_some {r : Record} {s : Schema} {e : ValErr}
    (h : checkDeclared r s = some e) :
    (∃ f, e = .missingField f ∧ f ∈ akeys s ∧ alookup r f = Option.none) ∨
    (∃ f ty v, e = .typeMismatch f ∧ (f, ty) ∈ s ∧ alookup r f = some v ∧
      isinstance v ty = false) := by
  induction s with
  | nil => rw [checkDeclared] at h; exact absurd h (by simp)
  | cons p rest ih =>
    obtain ⟨f, ty⟩ := p
    rw [checkDeclared] at h
    cases hl : alookup r f with
    | none =>
      rw [hl] at h
      dsimp only at h
      simp only [Option.some.injEq] at h
      subst h
      exact Or.inl ⟨f, rfl, by simp [akeys], hl⟩
    | some v =>
      rw [hl] at h
      dsimp only at h
      by_cases hty : isinstance v ty
      · rw [if_pos hty] at h
        rcases ih h with ⟨g, he, hg, hgl⟩ | ⟨g, ty', w, he, hg, hgl, hw⟩
        · exact Or.inl ⟨g, he, by simp [akeys] at hg ⊢; exact Or.inr hg, hgl⟩
        · exact Or.inr ⟨g, ty', w, he, List.mem_cons_of_mem _ hg, hgl, hw⟩
      · rw [if_neg hty] at h
        simp only [Option.some.injEq] at h
        subst h
        exact Or.inr ⟨f, ty, v, rfl, List.mem_cons_self _ _, hl,
          by simpa using hty⟩

theorem checkDeclared_eq_none {r : Record} {s : Schema} :
    checkDeclared r s = Option.none ↔
      ∀ p, p ∈ s → ∃ v, alookup r p.1 = some v ∧ isinstance v p.2 = true := by
  induction s with
  | nil => simp [checkDeclared]
  | cons p rest ih =>
    obtain ⟨f, ty⟩ := p
    rw [checkDeclared]
    cases hl : alookup r f with
    | none =>
      dsimp only
      simp only [reduceCtorEq, false_iff, not_forall]
      refine ⟨(f, ty), List.mem_cons_self _ _, ?_⟩
      simp [hl]
    | some v =>
      dsimp only
      by_cases hty : isinstance v ty
      · rw [if_pos hty, ih]
        constructor
        · intro hall p hp
          rcases List.mem_cons.mp hp with hp' | hp'
          · subst hp'
            exact ⟨v, hl, hty⟩
          · exact hall p hp'
        · intro hall p hp
          exact hall p (List.mem_cons_of_mem _ hp)
      · rw [if_neg hty]
        simp only [reduceCtorEq, false_iff, not_forall]
        refine ⟨(f, ty), List.mem_cons_self _ _, ?_⟩
        simp only [hl, Option.some.injEq, not_exists]
        rintro w ⟨he, hc⟩
        refine hty ?_
        rw [he]
        exact hc

theorem checkUnknown_some {s : Schema} {r : Record} {e : ValErr}
    (h : checkUnknown s r = some e) :
    ∃ f, e = .unknownField f ∧ f ∈ akeys r ∧ acontains s f = false := by
  induction r with
  | nil => rw [checkUnknown] at h; exact absurd h (by simp)
  | cons p rest ih =>
    obtain ⟨f, v⟩ := p
    rw [checkUnknown] at h
    by_cases hc : acontains s f
    · rw [if_pos hc] at h
      rcases ih h with ⟨g, he, hg, hgc⟩
      exact ⟨g, he, by simp [akeys] at hg ⊢; exact Or.inr hg, hgc⟩
    · rw [if_neg hc] at h
      simp only [Option.some.injEq] at h
      subst h
      exact ⟨f, rfl, by simp [akeys], by simpa using hc⟩

theorem checkUnknown_eq_none {s : Schema} {r : Record} :
    checkUnknown s r = Option.none ↔ ∀ p, p ∈ r → acontains s p.1 = true := by
  induction r with
  | nil => simp [checkUnknown]
  | cons p rest ih =>
    obtain ⟨f, v⟩ := p
    rw [checkUnknown]
    by_cases hc : acontains s f
    · rw [if_pos hc, ih]
      constructor
      · intro hall p hp
        rcases List.mem_cons.mp hp with hp' | hp'
        · subst hp'
          exact hc
        · exact hall p hp'
      · intro hall p hp
        exact hall p (List.mem_cons_of_mem _ hp)
    · rw [if_neg hc]
      simp only [reduceCtorEq, false_iff, not_forall]
      exact ⟨(f, v), List.mem_cons_self _ _, by simpa using hc⟩

/-! ## More map helpers (for insert/update/delete preservation) -/

section MoreAssoc

variable {κ : Type} {β : Type} [DecidableEq κ]
variable {l : List (κ × β)} {k : κ} {v w : β}

theorem aset_eq_append (h : acontains l k = false) (v : β) : aset l k v = l ++ [(k, v)] := by
  induction l with
  | nil => rfl
  | cons p rest ih =>
    rw [acontains_cons] at h
    simp only [Bool.or_eq_false_iff, decide_eq_false_iff_not] at h
    rw [aset_cons, if_neg h.1, ih h.2]
    rfl

theorem aset_head (rest : List (κ × β)) : aset ((k, v) :: rest) k w = (k, w) :: rest := by
  rw [aset_cons, if_pos rfl]

theorem aset_of_alookup_eq (h : alookup l k = some v) : aset l k v = l := by
  induction l with
  | nil => simp [alookup] at h
  | cons p rest ih =>
    rw [alookup_cons] at h
    by_cases hk : p.1 = k
    · rw [if_pos hk] at h
      simp only [Option.some.injEq] at h
      obtain ⟨k', v'⟩ := p
      simp only at hk
      subst hk
      subst h
      exact aset_head rest
    · rw [if_neg hk] at h
      obtain ⟨k', v'⟩ := p
      rw [aset_cons, if_neg hk, ih h]

theorem aset_aset (l : List (κ × β)) (k : κ) (v w : β) :
    aset (aset l k v) k w = aset l k w := by
  induction l with
  | nil => simp [aset]
  | cons p rest ih =>
    obtain ⟨k', v'⟩ := p
    by_cases hk : k' = k
    · subst hk
      rw [aset_cons, if_pos rfl]
      rw [show aset ((k', v) :: rest) k' w = (k', w) :: rest from aset_head rest]
      rw [aset_cons, if_pos rfl]
    · rw [aset_cons, if_neg hk]
      rw [show aset ((k', v') :: aset rest k v) k w =
          (k', v') :: aset (aset rest k v) k w from by rw [aset_cons, if_neg hk]]
      rw [aset_cons, if_neg hk, ih]

theorem rollback_nil (l : List (Value × Record)) : rollback l [] = l := rfl

theorem rollback_cons (l : List (Value × Record)) (b : Value × Record)
    (bs : List (Value × Record)) :
    rollback l (b :: bs) = rollback (aset l b.1 b.2) bs := rfl

theorem rollback_cons_not_mem {bs : List (Value × Record)} {k : Value}
    (h : k ∉ akeys bs) (v : Record) (l : List (Value × Record)) :
    rollback ((k, v) :: l) bs = (k, v) :: rollback l bs := by
  induction bs generalizing l with
  | nil => rfl
  | cons b rest ih =>
    rw [rollback_cons, rollback_cons]
    have hbk : b.1 ≠ k := by
      intro he
      exact h (by simp [akeys, he])
    rw [show aset ((k, v) :: l) b.1 b.2 = (k, v) :: aset l b.1 b.2 from by
      rw [aset_cons, if_neg (fun he => hbk he.symm)]]
    exact ih (fun hm => h (by simp [akeys] at hm ⊢; exact Or.inr hm)) _

theorem rollback_alookup {bs : List (Value × Record)} (hnd : (akeys bs).Nodup)
    (l : List (Value × Record)) (k : Value) :
    alookup (rollback l bs) k =
      match alookup bs k with
      | some v => some v
      | Option.none => alookup l k := by
  induction bs generalizing l with
  | nil => rfl
  | cons b rest ih =>
    obtain ⟨kb, vb⟩ := b
    simp only [akeys, List.map_cons, List.nodup_cons] at hnd
    rw [rollback_cons, ih hnd.2, alookup_cons]
    by_cases hk : kb = k
    · subst hk
      rw [if_pos rfl]
      have : alookup rest kb = Option.none :=
        alookup_eq_none_of_not_mem (by simpa [akeys] using hnd.1)
      rw [this]
      simp only
      rw [alookup_aset, if_pos rfl]
    · rw [if_neg hk]
      cases alookup rest k with
      | none =>
        simp only
        rw [alookup_aset, if_neg hk]
      | some w => rfl

end MoreAssoc

theorem rmerge_isSome_of_isSome {r changes : Record} {f : String}
    (h : (alookup r f).isSome) : (alookup (rmerge r changes) f).isSome := by
  induction changes generalizing r with
  | nil => exact h
  | cons p cs ih =>
    show (alookup (rmerge (rset r p.1 p.2) cs) f).isSome
    refine ih ?_
    by_cases hp : p.1 = f
    · subst hp
      rw [alookup_rset_self]
      rfl
    · rw [alookup_rset_ne r p.2 hp]
      exact h

theorem rmerge_isSome_of_changes {changes : Record} {f : String}
    (h : acontains changes f = true) (r : Record) :
    (alookup (rmerge r changes) f).isSome := by
  induction changes generalizing r with
  | nil => simp [acontains, alookup] at h
  | cons p cs ih =>
    show (alookup (rmerge (rset r p.1 p.2) cs) f).isSome
    by_cases hc : acontains cs f
    · exact ih hc _
    · rw [acontains_cons] at h
      simp only [hc, Bool.or_false, decide_eq_true_eq] at h
      refine rmerge_isSome_of_isSome ?_
      rw [h, alookup_rset_self]
      rfl

/-! ## Invariant preservation: insert and create_index -/

theorem rhas_false_alookup {r : Record} {f : String} (h : rhas r f = false) :
    alookup r f = Option.none := by
  rw [rhas, acontains] at h
  cases hl : alookup r f with
  | none => rfl
  | some v => rw [hl] at h; simp at h

theorem alookup_append_fresh {records : List (Value × Record)} {key : Value}
    (hfresh : acontains records key = false) (r : Record) (a : Value) :
    alookup (records ++ [(key, r)]) a = if key = a then some r else alookup records a := by
  rw [← aset_eq_append hfresh, alookup_aset]

theorem not_idxMem_of_fresh {records : List (Value × Record)} {f : String} {i : Index}
    {key : Value} (hfresh : acontains records key = false)
    (hsound : IdxSound records f i) : ∀ v, ¬ idxMem i v key := by
  intro v hm
  rcases hsound v key hm with ⟨r₀, hl, _⟩
  rw [show alookup records key = Option.none from by
    rw [acontains] at hfresh
    cases hx : alookup records key with
    | none => rfl
    | some w => rw [hx] at hfresh; simp at hfresh] at hl
  cases hl

theorem idxStep_inv {records : List (Value × Record)} {f : String} {i i' : Index}
    {key : Value} {r : Record}
    (hfresh : acontains records key = false)
    (hwf : IdxWF i) (hsound : IdxSound records f i) (hcomp : IdxComplete records f i)
    (hstep : (if rhas r f then idxInsert i key (rget r f) else some i) = some i') :
    IdxWF i' ∧ IdxSound (records ++ [(key, r)]) f i' ∧
      IdxComplete (records ++ [(key, r)]) f i' := by
  by_cases hrf : rhas r f
  · rw [if_pos hrf] at hstep
    refine ⟨idxInsert_wf hwf (not_idxMem_of_fresh hfresh hsound _) hstep, ?_, ?_⟩
    · intro v pk hm
      rw [idxMem_idxInsert hstep] at hm
      rcases hm with ⟨hv, hpk⟩ | hm
      · subst hv
        subst hpk
        exact ⟨r, by rw [alookup_append_fresh hfresh, if_pos rfl],
          alookup_eq_rget_of_rhas hrf⟩
      · rcases hsound v pk hm with ⟨r₀, hl, hf⟩
        have hne : key ≠ pk := by
          intro he
          subst he
          exact not_idxMem_of_fresh hfresh hsound v hm
        exact ⟨r₀, by rw [alookup_append_fresh hfresh, if_neg hne]; exact hl, hf⟩
    · intro v pk rx hv hlx hfx
      rw [alookup_append_fresh hfresh] at hlx
      by_cases hpk : key = pk
      · rw [if_pos hpk] at hlx
        simp only [Option.some.injEq] at hlx
        subst hlx
        rw [idxMem_idxInsert hstep]
        exact Or.inl ⟨(rget_eq_of_alookup hfx).symm, hpk.symm⟩
      · rw [if_neg hpk] at hlx
        rw [idxMem_idxInsert hstep]
        exact Or.inr (hcomp v pk rx hv hlx hfx)
  · rw [if_neg hrf] at hstep
    simp only [Option.some.injEq] at hstep
    subst hstep
    refine ⟨hwf, ?_, ?_⟩
    · intro v pk hm
      rcases hsound v pk hm with ⟨r₀, hl, hf⟩
      have hne : key ≠ pk := by
        intro he
        subst he
        exact not_idxMem_of_fresh hfresh hsound v hm
      exact ⟨r₀, by rw [alookup_append_fresh hfresh, if_neg hne]; exact hl, hf⟩
    · intro v pk rx hv hlx hfx
      rw [alookup_append_fresh hfresh] at hlx
      by_cases hpk : key = pk
      · rw [if_pos hpk] at hlx
        simp only [Option.some.injEq] at hlx
        subst hlx
        rw [rhas_false_alookup (by simpa using hrf)] at hfx
        cases hfx
      · rw [if_neg hpk] at hlx
        exact hcomp v pk rx hv hlx hfx

theorem idxsOnInsert_inv {idxs : List (String × Index)}
    {records : List (Value × Record)} {key : Value} {r : Record}
    (hfresh : acontains records key = false)
    (hinv : ∀ f idx, (f, idx) ∈ idxs →
      IdxWF idx ∧ IdxSound records f idx ∧ IdxComplete records f idx)
    (hok : (idxsOnInsert key r idxs).2 = true) :
    ∀ f idx, (f, idx) ∈ (idxsOnInsert key r idxs).1 →
      IdxWF idx ∧ IdxSound (records ++ [(key, r)]) f idx ∧
        IdxComplete (records ++ [(key, r)]) f idx := by
  induction idxs with
  | nil =>
    intro f idx hm
    rw [idxsOnInsert] at hm
    simp at hm
  | cons p rest ih =>
    obtain ⟨f0, i0⟩ := p
    rcases hinv f0 i0 (List.mem_cons_self _ _) with ⟨hwf0, hsound0, hcomp0⟩
    by_cases hrf : rhas r f0
    · rw [idxsOnInsert, if_pos hrf] at hok ⊢
      cases hins : idxInsert i0 key (rget r f0) with
      | none =>
        rw [hins] at hok
        simp at hok
      | some i0' =>
        rw [hins] at hok
        dsimp only at hok ⊢
        intro f idx hm
        rcases List.mem_cons.mp hm with hm' | hm'
        · rcases Prod.ext_iff.mp hm' with ⟨he1, he2⟩
          simp only at he1 he2
          subst he1
          subst he2
          exact idxStep_inv hfresh hwf0 hsound0 hcomp0 (by rw [if_pos hrf]; exact hins)
        · exact ih (fun g j hj => hinv g j (List.mem_cons_of_mem _ hj)) hok f idx hm'
    · rw [idxsOnInsert, if_neg hrf] at hok ⊢
      dsimp only at hok ⊢
      intro f idx hm
      rcases List.mem_cons.mp hm with hm' | hm'
      · rcases Prod.ext_iff.mp hm' with ⟨he1, he2⟩
        simp only at he1 he2
        subst he1
        subst he2
        exact idxStep_inv hfresh hwf0 hsound0 hcomp0 (by rw [if_neg hrf])
      · exact ih (fun g j hj => hinv g j (List.mem_cons_of_mem _ hj)) hok f idx hm'

theorem buildFold_inv {f : String} :
    ∀ (rs processed : List (Value × Record)) (i0 idx : Index),
    (akeys (processed ++ rs)).Nodup →
    IdxWF i0 → IdxSound processed f i0 → IdxComplete processed f i0 →
    List.foldlM
      (fun idx p => if rhas p.2 f then idxInsert idx p.1 (rget p.2 f) else some idx)
      i0 rs = some idx →
    IdxWF idx ∧ IdxSound (processed ++ rs) f idx ∧
      IdxComplete (processed ++ rs) f idx := by
  intro rs
  induction rs with
  | nil =>
    intro processed i0 idx hnd hwf hsound hcomp h
    rw [List.foldlM_nil] at h
    simp only [Option.pure_def, Option.some.injEq] at h
    subst h
    simpa using ⟨hwf, hsound, hcomp⟩
  | cons p rs' ih =>
    intro processed i0 idx hnd hwf hsound hcomp h
    obtain ⟨k, r⟩ := p
    rw [List.foldlM_cons] at h
    cases hstep : (if rhas r f then idxInsert i0 k (rget r f) else some i0) with
    | none => rw [hstep] at h; exact absurd h (by simp)
    | some i1 =>
      rw [hstep] at h
      simp only [Option.bind_eq_bind, Option.some_bind] at h
      have hfresh : acontains processed k = false := by
        rw [acontains_eq_false_iff]
        intro hmem
        have hnda : (akeys processed ++ k :: akeys rs').Nodup := by
          simpa [akeys] using hnd
        rcases List.nodup_append.mp hnda with ⟨_, _, hdisj⟩
        exact hdisj hmem (List.mem_cons_self _ _)
      have hstep' := idxStep_inv hfresh hwf hsound hcomp hstep
      have := ih (processed ++ [(k, r)]) i1 idx
        (by rw [show (processed ++ [(k, r)]) ++ rs' = processed ++ (k, r) :: rs' from by
          simp]; exact hnd)
        hstep'.1 hstep'.2.1 hstep'.2.2 h
      rw [show (processed ++ [(k, r)]) ++ rs' = processed ++ (k, r) :: rs' from by simp] at this
      exact this

theorem buildIndex_inv {records : List (Value × Record)} {f ty : String} {idx : Index}
    (hnd : (akeys records).Nodup) (h : buildIndex f ty records = some idx) :
    IdxWF idx ∧ IdxSound records f idx ∧ IdxComplete records f idx := by
  rw [buildIndex] at h
  cases hreg : registryCreate ty with
  | none => rw [hreg] at h; exact absurd h (by simp)
  | some i0 =>
    rw [hreg] at h
    simp only [Option.bind_eq_bind, Option.some_bind] at h
    have hbase : IdxWF i0 ∧ IdxSound [] f i0 ∧ IdxComplete [] f i0 := by
      rw [registryCreate] at hreg
      by_cases h1 : ty = "hash"
      · rw [if_pos h1] at hreg
        simp only [Option.some.injEq] at hreg
        subst hreg
        refine ⟨⟨by simp, by simp⟩, ?_, ?_⟩
        · intro v pk hm
          rw [idxMem, hashSearch] at hm
          simp [alookup] at hm
        · intro v pk rx _ hlx _
          simp [alookup] at hlx
      · rw [if_neg h1] at hreg
        by_cases h2 : ty = "sorted"
        · rw [if_pos h2] at hreg
          simp only [Option.some.injEq] at hreg
          subst hreg
          refine ⟨by simp [IdxWF], ?_, ?_⟩
          · intro v pk hm
            rw [idxMem] at hm
            simp at hm
          · intro v pk rx _ hlx _
            simp [alookup] at hlx
        · rw [if_neg h2] at hreg
          cases hreg
    have := buildFold_inv records [] i0 idx (by simpa using hnd)
      hbase.1 hbase.2.1 hbase.2.2 h
    simpa using this

theorem create_index_preserves_inv {t : Table} (f ty : String) (hinv : Inv t) :
    Inv (Table.create_index t f ty) := by
  rw [Table.create_index]
  by_cases hc : acontains t.indexes f
  · rw [if_pos hc]
    exact hinv
  · rw [if_neg (by simpa using hc)]
    cases hb : buildIndex f ty t.records with
    | none => exact hinv
    | some idx =>
      rcases hinv with ⟨hnd, hpk, hidx⟩
      refine ⟨hnd, hpk, ?_⟩
      intro g j hj
      simp only [List.mem_append, List.mem_singleton] at hj
      rcases hj with hj | hj
      · exact hidx g j hj
      · rcases Prod.ext_iff.mp hj with ⟨he1, he2⟩
        simp only at he1 he2
        subst he1
        subst he2
        exact buildIndex_inv hnd hb

theorem insertKeyed_preserves_inv {t : Table} {key : Value} {r : Record}
    (hinv : Inv t) (hfresh : acontains t.records key = false)
    (hpk : alookup r t.primary_key = some key)
    (hok : (Table.insertKeyed t r key).1 ≠ .error .hostError) :
    Inv (Table.insertKeyed t r key).2 := by
  cases hv : validateRecord t.schema r with
  | some e =>
    rw [Table.insertKeyed, hv]
    exact hinv
  | none =>
    rw [Table.insertKeyed, hv] at hok ⊢
    dsimp only at hok ⊢
    rcases hinv with ⟨hnd, hpkm, hidx⟩
    by_cases hflag : (idxsOnInsert key r t.indexes).2 = true
    · rw [if_pos hflag]
      refine ⟨?_, ?_, ?_⟩
      · exact nodup_akeys_aset hnd hfresh
      · intro k' r' hm
        rcases mem_aset hm with hm' | hm'
        · rcases Prod.ext_iff.mp hm' with ⟨he1, he2⟩
          simp only at he1 he2
          subst he1
          subst he2
          exact hpk
        · exact hpkm k' r' hm'
      · intro g j hj
        rw [aset_eq_append hfresh]
        exact idxsOnInsert_inv hfresh hidx hflag g j hj
    · exfalso
      rw [if_neg hflag] at hok
      exact hok rfl

theorem insert_preserves_inv {t : Table} {r : Record} (hinv : Inv t)
    (hok : (Table.insert t r).1 ≠ .error .hostError) : Inv (Table.insert t r).2 := by
  by_cases hrp : rhas r t.primary_key
  · by_cases hc : acontains t.records (rget r t.primary_key)
    · rw [Table.insert, if_pos hrp, if_pos hc] at hok ⊢
      exact hinv
    · rw [Table.insert, if_pos hrp, if_neg (by simpa using hc)] at hok ⊢
      exact insertKeyed_preserves_inv hinv (by simpa using hc)
        (alookup_eq_rget_of_rhas hrp) hok
  · cases hrecs : t.records with
    | nil =>
      rw [Table.insert, if_neg hrp, hrecs] at hok ⊢
      dsimp only at hok ⊢
      refine insertKeyed_preserves_inv hinv ?_ (alookup_rset_self r _ _) hok
      rw [hrecs]
      rfl
    | cons p0 rest =>
      obtain ⟨k0, r0⟩ := p0
      rw [Table.insert, if_neg hrp, hrecs] at hok ⊢
      dsimp only at hok ⊢
      rcases Option.eq_none_or_eq_some (pyMax k0 (List.map Prod.fst rest)) with
        hmax | ⟨m, hmax⟩
      · rw [hmax] at hok ⊢
        simp only [Option.bind_eq_bind, Option.none_bind] at hok
        exact absurd rfl hok
      · rw [hmax] at hok ⊢
        simp only [Option.bind_eq_bind, Option.some_bind] at hok ⊢
        rcases Option.eq_none_or_eq_some (pyAdd1 m) with hadd | ⟨key, hadd⟩
        · rw [hadd] at hok
          exact absurd rfl hok
        · rw [hadd] at hok ⊢
          have hkey : ∃ n : Int, key = .int (n + 1) ∧ m = .int n := by
            cases m with
            | int n => exact ⟨n, by rw [pyAdd1] at hadd; simpa using hadd.symm, rfl⟩
            | str s => simp [pyAdd1] at hadd
            | none => simp [pyAdd1] at hadd
          obtain ⟨n, hkeyn, hmn⟩ := hkey
          have hbound := pyMax_int_bound hmax hmn
          have hfresh : acontains t.records key = false := by
            rw [acontains_eq_false_iff]
            intro hmem
            rw [hrecs] at hmem
            simp only [akeys, List.map_cons, List.mem_cons] at hmem
            rcases hmem with hmem | hmem
            · rcases hbound.1 with ⟨j, hj, hjn⟩
              rw [hkeyn, hj] at hmem
              simp only [Value.int.injEq] at hmem
              omega
            · rcases hbound.2 key (by simpa [akeys] using hmem) with ⟨j, hj, hjn⟩
              rw [hkeyn] at hj
              simp only [Value.int.injEq] at hj
              omega
          exact insertKeyed_preserves_inv hinv hfresh
            (alookup_rset_self r t.primary_key key) hok

/-! ## Invariant preservation: delete -/

theorem idxDelStep_inv {records : List (Value × Record)} {f : String} {i i' : Index}
    {k : Value} {r : Record}
    (hnd : (akeys records).Nodup) (hlk : alookup records k = some r)
    (hwf : IdxWF i) (hsound : IdxSound records f i) (hcomp : IdxComplete records f i)
    (hstep : (if rhas r f then idxDelete i k (rget r f) else some i) = some i') :
    IdxWF i' ∧ IdxSound (adel records k) f i' ∧ IdxComplete (adel records k) f i' := by
  by_cases hrf : rhas r f
  · rw [if_pos hrf] at hstep
    refine ⟨idxDelete_wf hwf hstep, ?_, ?_⟩
    · intro v pk hm
      rw [idxMem_idxDelete hwf hstep] at hm
      rcases hm with ⟨hm, hne⟩
      rcases hsound v pk hm with ⟨r₀, hl, hf⟩
      have hpk : pk ≠ k := by
        intro he
        subst he
        rw [hlk] at hl
        simp only [Option.some.injEq] at hl
        subst hl
        exact hne ⟨(rget_eq_of_alookup hf).symm, rfl⟩
      refine ⟨r₀, ?_, hf⟩
      rw [alookup_adel hnd, if_neg (fun he => hpk he.symm)]
      exact hl
    · intro v pk rx hv hlx hfx
      rw [alookup_adel hnd] at hlx
      by_cases hpk : k = pk
      · rw [if_pos hpk] at hlx
        cases hlx
      · rw [if_neg hpk] at hlx
        rw [idxMem_idxDelete hwf hstep]
        exact ⟨hcomp v pk rx hv hlx hfx, fun hcon => hpk hcon.2.symm⟩
  · rw [if_neg hrf] at hstep
    simp only [Option.some.injEq] at hstep
    subst hstep
    refine ⟨hwf, ?_, ?_⟩
    · intro v pk hm
      rcases hsound v pk hm with ⟨r₀, hl, hf⟩
      have hpk : pk ≠ k := by
        intro he
        subst he
        rw [hlk] at hl
        simp only [Option.some.injEq] at hl
        subst hl
        rw [rhas_false_alookup (by simpa using hrf)] at hf
        cases hf
      refine ⟨r₀, ?_, hf⟩
      rw [alookup_adel hnd, if_neg (fun he => hpk he.symm)]
      exact hl
    · intro v pk rx hv hlx hfx
      rw [alookup_adel hnd] at hlx
      by_cases hpk : k = pk
      · rw [if_pos hpk] at hlx
        cases hlx
      · rw [if_neg hpk] at hlx
        exact hcomp v pk rx hv hlx hfx

theorem idxsOnDelete_inv {idxs : List (String × Index)}
    {records : List (Value × Record)} {k : Value} {r : Record}
    (hnd : (akeys records).Nodup) (hlk : alookup records k = some r)
    (hinv : ∀ f idx, (f, idx) ∈ idxs →
      IdxWF idx ∧ IdxSound records f idx ∧ IdxComplete records f idx)
    (hok : (idxsOnDelete k r idxs).2 = true) :
    ∀ f idx, (f, idx) ∈ (idxsOnDelete k r idxs).1 →
      IdxWF idx ∧ IdxSound (adel records k) f idx ∧
        IdxComplete (adel records k) f idx := by
  induction idxs with
  | nil =>
    intro f idx hm
    rw [idxsOnDelete] at hm
    simp at hm
  | cons p rest ih =>
    obtain ⟨f0, i0⟩ := p
    rcases hinv f0 i0 (List.mem_cons_self _ _) with ⟨hwf0, hsound0, hcomp0⟩
    by_cases hrf : rhas r f0
    · rw [idxsOnDelete, if_pos hrf] at hok ⊢
      rcases Option.eq_none_or_eq_some (idxDelete i0 k (rget r f0)) with hdel | ⟨i0', hdel⟩
      · rw [hdel] at hok
        simp at hok
      · rw [hdel] at hok ⊢
        dsimp only at hok ⊢
        intro f idx hm
        rcases List.mem_cons.mp hm with hm' | hm'
        · rcases Prod.ext_iff.mp hm' with ⟨he1, he2⟩
          simp only at he1 he2
          subst he1
          subst he2
          exact idxDelStep_inv hnd hlk hwf0 hsound0 hcomp0 (by rw [if_pos hrf]; exact hdel)
        · exact ih (fun g j hj => hinv g j (List.mem_cons_of_mem _ hj)) hok f idx hm'
    · rw [idxsOnDelete, if_neg hrf] at hok ⊢
      dsimp only at hok ⊢
      intro f idx hm
      rcases List.mem_cons.mp hm with hm' | hm'
      · rcases Prod.ext_iff.mp hm' with ⟨he1, he2⟩
        simp only at he1 he2
        subst he1
        subst he2
        exact idxDelStep_inv hnd hlk hwf0 hsound0 hcomp0 (by rw [if_neg hrf])
      · exact ih (fun g j hj => hinv g j (List.mem_cons_of_mem _ hj)) hok f idx hm'

theorem deleteLoop_inv {pkField : String} :
    ∀ (ks : List Value) (recs : List (Value × Record)) (idxs : List (String × Index))
      (recs' : List (Value × Record)) (idxs' : List (String × Index)),
    (akeys recs).Nodup →
    (∀ k r, (k, r) ∈ recs → alookup r pkField = some k) →
    (∀ f idx, (f, idx) ∈ idxs →
      IdxWF idx ∧ IdxSound recs f idx ∧ IdxComplete recs f idx) →
    deleteLoop pkField ks recs idxs = (recs', idxs', true) →
    (akeys recs').Nodup ∧ (∀ k r, (k, r) ∈ recs' → alookup r pkField = some k) ∧
      (∀ f idx, (f, idx) ∈ idxs' →
        IdxWF idx ∧ IdxSound recs' f idx ∧ IdxComplete recs' f idx) := by
  intro ks
  induction ks with
  | nil =>
    intro recs idxs recs' idxs' hnd hpk hidx h
    rw [deleteLoop] at h
    simp only [Prod.mk.injEq] at h
    rw [← h.1, ← h.2.1]
    exact ⟨hnd, hpk, hidx⟩
  | cons k ks' ih =>
    intro recs idxs recs' idxs' hnd hpk hidx h
    rw [deleteLoop] at h
    rcases Option.eq_none_or_eq_some (alookup recs k) with hlk | ⟨r, hlk⟩
    · rw [hlk] at h
      simp at h
    · rw [hlk] at h
      dsimp only at h
      have hpkr : alookup r pkField = some k := hpk k r (alookup_mem hlk)
      rw [hpkr] at h
      dsimp only at h
      by_cases hflag : (idxsOnDelete k r idxs).2 = true
      · rw [if_pos hflag] at h
        refine ih (adel recs k) (idxsOnDelete k r idxs).1 recs' idxs'
          ((akeys_adel_sublist recs k).nodup hnd)
          (fun k' r' hm => hpk k' r' (mem_adel hm))
          (idxsOnDelete_inv hnd hlk hidx hflag) h
      · rw [if_neg hflag] at h
        simp at h

theorem delete_preserves_inv {t : Table} {w : Option Pred} (hinv : Inv t)
    (hok : (Table.delete t w).1 ≠ .error .hostError) : Inv (Table.delete t w).2 := by
  rcases Option.eq_none_or_eq_some (keysToDelete w t.records) with hks | ⟨ks, hks⟩
  · rw [Table.delete, hks]
    exact hinv
  · cases ks with
    | nil =>
      rw [Table.delete, hks]
      exact hinv
    | cons k ks' =>
      rw [Table.delete, hks] at hok ⊢
      dsimp only at hok ⊢
      rcases hinv with ⟨hnd, hpk, hidx⟩
      by_cases hflag : (deleteLoop t.primary_key (k :: ks') t.records t.indexes).2.2 = true
      · rw [if_pos hflag] at hok ⊢
        have := deleteLoop_inv (k :: ks') t.records t.indexes
          (deleteLoop t.primary_key (k :: ks') t.records t.indexes).1
          (deleteLoop t.primary_key (k :: ks') t.records t.indexes).2.1
          hnd hpk hidx
          (by rw [← hflag])
        exact ⟨this.1, this.2.1, this.2.2⟩
      · rw [if_neg hflag] at hok
        exact absurd rfl hok

/-! ## Invariant preservation: update -/

theorem updateGo_spec {changes : Record} {w : Option Pred} {schema : Option Schema} :
    ∀ {records : List (Value × Record)}, (akeys records).Nodup →
    (akeys (updateGo changes w schema records).1 = akeys records) ∧
    (∀ p, p ∈ (updateGo changes w schema records).2.1 → p ∈ records) ∧
    (akeys (updateGo changes w schema records).2.1).Nodup ∧
    (rollback (updateGo changes w schema records).1
      (updateGo changes w schema records).2.1 = records) ∧
    ((updateGo changes w schema records).2.2.2 = Option.none →
      ∀ k r₀, (k, r₀) ∈ (updateGo changes w schema records).2.1 →
        alookup (updateGo changes w schema records).1 k = some (rmerge r₀ changes)) ∧
    (∀ p, p ∈ (updateGo changes w schema records).1 →
      ∃ r₀, (p.1, r₀) ∈ records ∧ (p.2 = r₀ ∨ p.2 = rmerge r₀ changes)) := by
  intro records
  induction records with
  | nil =>
    intro _
    rw [updateGo]
    refine ⟨rfl, by simp, by simp [akeys], rfl, by simp, by simp⟩
  | cons p rest ih =>
    obtain ⟨k, r⟩ := p
    intro hnd
    have hndr : (akeys rest).Nodup := by
      simp only [akeys, List.map_cons, List.nodup_cons] at hnd
      exact hnd.2
    have hknot : k ∉ akeys rest := by
      simp only [akeys, List.map_cons, List.nodup_cons] at hnd
      exact hnd.1
    have hsub := ih hndr
    rw [updateGo]
    rcases Option.eq_none_or_eq_some (evalWhere w r) with hew | ⟨b, hew⟩
    · rw [hew]
      dsimp only
      refine ⟨rfl, by simp, by simp [akeys], rfl, ?_, ?_⟩
      · intro hc
        cases hc
      · intro p hp
        exact ⟨p.2, by simpa using hp, Or.inl rfl⟩
    · rw [hew]
      cases b with
      | false =>
        dsimp only
        have hBsub : ∀ k', k' ∈ akeys (updateGo changes w schema rest).2.1 →
            k' ∈ akeys rest := by
          intro k' hk'
          simp only [akeys, List.mem_map] at hk'
          rcases hk' with ⟨q, hq, he⟩
          subst he
          exact List.mem_map_of_mem Prod.fst (hsub.2.1 q hq)
        refine ⟨?_, ?_, hsub.2.2.1, ?_, ?_, ?_⟩
        · simp only [akeys, List.map_cons]
          rw [show (List.map Prod.fst (updateGo changes w schema rest).1 : List Value) =
            akeys (updateGo changes w schema rest).1 from rfl, hsub.1]
          rfl
        · intro q hq
          exact List.mem_cons_of_mem _ (hsub.2.1 q hq)
        · rw [rollback_cons_not_mem (fun hm => hknot (hBsub k hm)) r _, hsub.2.2.2.1]
        · intro hc k' r₀ hm
          rw [alookup_cons]
          have hk' : k' ∈ akeys rest :=
            hBsub k' (List.mem_map_of_mem Prod.fst hm)
          rw [if_neg (by
            intro he
            simp only at he
            exact hknot (he ▸ hk'))]
          exact hsub.2.2.2.2.1 hc k' r₀ hm
        · intro q hq
          rcases List.mem_cons.mp hq with hq' | hq'
          · exact ⟨q.2, by simp [hq'], Or.inl rfl⟩
          · rcases hsub.2.2.2.2.2 q hq' with ⟨r₀, hr₀, hor⟩
            exact ⟨r₀, List.mem_cons_of_mem _ hr₀, hor⟩
      | true =>
        dsimp only
        rcases Option.eq_none_or_eq_some (validateRecord schema (rmerge r changes)) with
          hval | ⟨e, hval⟩
        · rw [hval]
          dsimp only
          have hBsub : ∀ k', k' ∈ akeys (updateGo changes w schema rest).2.1 →
              k' ∈ akeys rest := by
            intro k' hk'
            simp only [akeys, List.mem_map] at hk'
            rcases hk' with ⟨q, hq, he⟩
            subst he
            exact List.mem_map_of_mem Prod.fst (hsub.2.1 q hq)
          refine ⟨?_, ?_, ?_, ?_, ?_, ?_⟩
          · simp only [akeys, List.map_cons]
            rw [show (List.map Prod.fst (updateGo changes w schema rest).1 : List Value) =
              akeys (updateGo changes w schema rest).1 from rfl, hsub.1]
            rfl
          · intro q hq
            rcases List.mem_cons.mp hq with hq' | hq'
            · subst hq'
              exact List.mem_cons_self _ _
            · exact List.mem_cons_of_mem _ (hsub.2.1 q hq')
          · simp only [akeys, List.map_cons, List.nodup_cons]
            exact ⟨fun hm => hknot (hBsub k hm), hsub.2.2.1⟩
          · rw [rollback_cons,
              show aset ((k, rmerge r changes) :: (updateGo changes w schema rest).1) k r =
                (k, r) :: (updateGo changes w schema rest).1 from aset_head _,
              rollback_cons_not_mem (fun hm => hknot (hBsub k hm)) r _, hsub.2.2.2.1]
          · intro hc k' r₀ hm
            rcases List.mem_cons.mp hm with hm' | hm'
            · rcases Prod.ext_iff.mp hm' with ⟨he1, he2⟩
              simp only at he1 he2
              subst he1
              subst he2
              rw [alookup_cons, if_pos rfl]
            · have hk' : k' ∈ akeys rest :=
                hBsub k' (List.mem_map_of_mem Prod.fst hm')
              rw [alookup_cons, if_neg (by
                intro he
                simp only at he
                exact hknot (he ▸ hk'))]
              exact hsub.2.2.2.2.1 hc k' r₀ hm'
          · intro q hq
            rcases List.mem_cons.mp hq with hq' | hq'
            · exact ⟨r, by simp [hq'], Or.inr (by simp [hq'])⟩
            · rcases hsub.2.2.2.2.2 q hq' with ⟨r₀, hr₀, hor⟩
              exact ⟨r₀, List.mem_cons_of_mem _ hr₀, hor⟩
        · rw [hval]
          dsimp only
          refine ⟨by simp [akeys], ?_, by simp [akeys], ?_, ?_, ?_⟩
          · intro q hq
            simp only [List.mem_singleton] at hq
            subst hq
            exact List.mem_cons_self _ _
          · rw [rollback_cons]
            simp only
            rw [show aset ((k, rmerge r changes) :: rest) k r = (k, r) :: rest from
              aset_head _]
            rfl
          · intro hc
            cases hc
          · intro q hq
            rcases List.mem_cons.mp hq with hq' | hq'
            · exact ⟨r, by simp [hq'], Or.inr (by simp [hq'])⟩
            · exact ⟨q.2, by simpa using List.mem_cons_of_mem _ hq', Or.inl rfl⟩

theorem alookup_isSome_rget {r : Record} {f : String} (h : (alookup r f).isSome) :
    alookup r f = some (rget r f) := by
  cases hl : alookup r f with
  | none => rw [hl] at h; simp at h
  | some v => rw [rget, hl]; rfl

theorem IdxSound_congr {M M' : List (Value × Record)} {f : String} {i : Index}
    (h : ∀ k, alookup M k = alookup M' k) (hs : IdxSound M f i) : IdxSound M' f i := by
  intro v pk hm
  rcases hs v pk hm with ⟨r₀, hl, hf⟩
  exact ⟨r₀, (h pk) ▸ hl, hf⟩

theorem IdxComplete_congr {M M' : List (Value × Record)} {f : String} {i : Index}
    (h : ∀ k, alookup M k = alookup M' k) (hc : IdxComplete M f i) :
    IdxComplete M' f i := by
  intro v pk rx hv hlx hfx
  exact hc v pk rx hv ((h pk) ▸ hlx) hfx

theorem idxUpd_step_inv {M : List (Value × Record)} {pk : Value} {oldR changes : Record}
    {f : String} {i i' : Index}
    (hM : alookup M pk = some oldR)
    (hwf : IdxWF i) (hsound : IdxSound M f i) (hcomp : IdxComplete M f i)
    (hstep : (if rget oldR f = rget (rmerge oldR changes) f then (i, true)
        else idxUpdate i pk (rget oldR f) (rget (rmerge oldR changes) f)) = (i', true)) :
    IdxWF i' ∧ IdxSound (aset M pk (rmerge oldR changes)) f i' ∧
      IdxComplete (aset M pk (rmerge oldR changes)) f i' := by
  by_cases heq : rget oldR f = rget (rmerge oldR changes) f
  · rw [if_pos heq] at hstep
    simp only [Prod.mk.injEq] at hstep
    have hi : i' = i := hstep.1.symm
    subst hi
    refine ⟨hwf, ?_, ?_⟩
    · intro v pk' hm
      rcases hsound v pk' hm with ⟨r₀, hl, hf⟩
      by_cases hpk : pk = pk'
      · subst hpk
        rw [hM] at hl
        simp only [Option.some.injEq] at hl
        subst hl
        have hns : (alookup (rmerge oldR changes) f).isSome :=
          rmerge_isSome_of_isSome (by rw [hf]; rfl)
        refine ⟨rmerge oldR changes, by rw [alookup_aset, if_pos rfl], ?_⟩
        rw [alookup_isSome_rget hns, ← heq, rget_eq_of_alookup hf]
      · exact ⟨r₀, by rw [alookup_aset, if_neg hpk]; exact hl, hf⟩
    · intro v pk' rx hv hlx hfx
      rw [alookup_aset] at hlx
      by_cases hpk : pk = pk'
      · rw [if_pos hpk] at hlx
        simp only [Option.some.injEq] at hlx
        subst hlx
        subst hpk
        cases hold : alookup oldR f with
        | none =>
          exfalso
          have hrn : rget oldR f = .none := by rw [rget, hold]; rfl
          rw [hrn] at heq
          exact hv (by rw [← rget_eq_of_alookup hfx, ← heq])
        | some u =>
          have hu : u = v := by
            have h1 : rget oldR f = u := rget_eq_of_alookup hold
            have h2 : rget (rmerge oldR changes) f = v := rget_eq_of_alookup hfx
            rw [← h1, heq, h2]
          subst hu
          exact hcomp u pk oldR hv hM hold
      · rw [if_neg hpk] at hlx
        exact hcomp v pk' rx hv hlx hfx
  · rw [if_neg heq] at hstep
    have hnm : ¬ idxMem i (rget (rmerge oldR changes) f) pk := by
      intro hm
      rcases hsound _ _ hm with ⟨r₀, hl, hf⟩
      rw [hM] at hl
      simp only [Option.some.injEq] at hl
      subst hl
      exact heq (rget_eq_of_alookup hf)
    have hnewSome : alookup (rmerge oldR changes) f =
        some (rget (rmerge oldR changes) f) := by
      by_cases hc : acontains changes f
      · exact alookup_isSome_rget (rmerge_isSome_of_changes hc _)
      · exfalso
        refine heq ?_
        rw [rget, rget, alookup_rmerge_not_mem (by simpa using hc) oldR]
    refine ⟨idxUpdate_ok_wf hwf hnm hstep, ?_, ?_⟩
    · intro v pk' hm
      rw [idxUpdate_ok_mem hwf hstep] at hm
      rcases hm with ⟨hv, hpk'⟩ | ⟨hm, hne⟩
      · subst hv
        subst hpk'
        exact ⟨rmerge oldR changes, by rw [alookup_aset, if_pos rfl], hnewSome⟩
      · rcases hsound v pk' hm with ⟨r₀, hl, hf⟩
        by_cases hpk : pk = pk'
        · exfalso
          subst hpk
          rw [hM] at hl
          simp only [Option.some.injEq] at hl
          subst hl
          exact hne ⟨(rget_eq_of_alookup hf).symm, rfl⟩
        · exact ⟨r₀, by rw [alookup_aset, if_neg hpk]; exact hl, hf⟩
    · intro v pk' rx hv hlx hfx
      rw [alookup_aset] at hlx
      rw [idxUpdate_ok_mem hwf hstep]
      by_cases hpk : pk = pk'
      · rw [if_pos hpk] at hlx
        simp only [Option.some.injEq] at hlx
        subst hlx
        exact Or.inl ⟨(rget_eq_of_alookup hfx).symm, hpk.symm⟩
      · rw [if_neg hpk] at hlx
        exact Or.inr ⟨hcomp v pk' rx hv hlx hfx, fun hcon => hpk hcon.2.symm⟩

theorem idxsOnUpdate_inv {idxs : List (String × Index)} {M : List (Value × Record)}
    {pk : Value} {oldR changes : Record}
    (hM : alookup M pk = some oldR)
    (hinv : ∀ f idx, (f, idx) ∈ idxs →
      IdxWF idx ∧ IdxSound M f idx ∧ IdxComplete M f idx)
    (hok : (idxsOnUpdate pk oldR (rmerge oldR changes) idxs).2 = true) :
    ∀ f idx, (f, idx) ∈ (idxsOnUpdate pk oldR (rmerge oldR changes) idxs).1 →
      IdxWF idx ∧ IdxSound (aset M pk (rmerge oldR changes)) f idx ∧
        IdxComplete (aset M pk (rmerge oldR changes)) f idx := by
  induction idxs with
  | nil =>
    intro f idx hm
    rw [idxsOnUpdate] at hm
    simp at hm
  | cons p rest ih =>
    obtain ⟨f0, i0⟩ := p
    rcases hinv f0 i0 (List.mem_cons_self _ _) with ⟨hwf0, hsound0, hcomp0⟩
    by_cases heq : rget oldR f0 = rget (rmerge oldR changes) f0
    · rw [idxsOnUpdate, if_pos heq] at hok ⊢
      dsimp only at hok ⊢
      intro f idx hm
      rcases List.mem_cons.mp hm with hm' | hm'
      · rcases Prod.ext_iff.mp hm' with ⟨he1, he2⟩
        simp only at he1 he2
        subst he1
        subst he2
        exact idxUpd_step_inv hM hwf0 hsound0 hcomp0 (by rw [if_pos heq])
      · exact ih (fun g j hj => hinv g j (List.mem_cons_of_mem _ hj)) hok f idx hm'
    · rw [idxsOnUpdate, if_neg heq] at hok ⊢
      by_cases hflag : (idxUpdate i0 pk (rget oldR f0) (rget (rmerge oldR changes) f0)).2 = true
      · rw [if_pos hflag] at hok ⊢
        dsimp only at hok ⊢
        intro f idx hm
        rcases List.mem_cons.mp hm with hm' | hm'
        · rcases Prod.ext_iff.mp hm' with ⟨he1, he2⟩
          simp only at he1 he2
          subst he1
          subst he2
          refine idxUpd_step_inv hM hwf0 hsound0 hcomp0 ?_
          rw [if_neg heq]
          exact Prod.ext rfl hflag
        · exact ih (fun g j hj => hinv g j (List.mem_cons_of_mem _ hj)) hok f idx hm'
      · rw [if_neg hflag] at hok
        dsimp only at hok
        simp at hok

theorem updateIdxLoop_inv {changes : Record} {l : List (Value × Record)} :
    ∀ (bs : List (Value × Record)) (idxs idxs' : List (String × Index)),
    (akeys bs).Nodup →
    (∀ k r₀, (k, r₀) ∈ bs → alookup l k = some (rmerge r₀ changes)) →
    (∀ f idx, (f, idx) ∈ idxs →
      IdxWF idx ∧ IdxSound (rollback l bs) f idx ∧ IdxComplete (rollback l bs) f idx) →
    updateIdxLoop l bs idxs = (idxs', true) →
    ∀ f idx, (f, idx) ∈ idxs' →
      IdxWF idx ∧ IdxSound l f idx ∧ IdxComplete l f idx := by
  intro bs
  induction bs with
  | nil =>
    intro idxs idxs' _ _ hinv h
    rw [updateIdxLoop] at h
    simp only [Prod.mk.injEq] at h
    rw [← h.1]
    exact hinv
  | cons b bs' ih =>
    obtain ⟨pk, oldR⟩ := b
    intro idxs idxs' hnd hlk hinv h
    simp only [akeys, List.map_cons, List.nodup_cons] at hnd
    have hlkpk : alookup l pk = some (rmerge oldR changes) :=
      hlk pk oldR (List.mem_cons_self _ _)
    rw [updateIdxLoop, hlkpk] at h
    dsimp only at h
    have hM : alookup (rollback l ((pk, oldR) :: bs')) pk = some oldR := by
      rw [rollback_cons]
      rw [rollback_alookup hnd.2]
      rw [alookup_eq_none_of_not_mem hnd.1]
      dsimp only
      rw [alookup_aset, if_pos rfl]
    have hcongr : ∀ k, alookup (aset (rollback l ((pk, oldR) :: bs')) pk
        (rmerge oldR changes)) k = alookup (rollback l bs') k := by
      intro k
      rw [alookup_aset, rollback_cons, rollback_alookup hnd.2,
        rollback_alookup hnd.2]
      by_cases hpk : pk = k
      · subst hpk
        rw [alookup_eq_none_of_not_mem hnd.1]
        dsimp only
        rw [if_pos rfl, hlkpk]
      · rw [if_neg hpk]
        cases alookup bs' k with
        | none =>
          dsimp only
          rw [alookup_aset, if_neg hpk]
        | some q => rfl
    by_cases hflag : (idxsOnUpdate pk oldR (rmerge oldR changes) idxs).2 = true
    · rw [if_pos hflag] at h
      refine ih (idxsOnUpdate pk oldR (rmerge oldR changes) idxs).1 idxs'
        hnd.2
        (fun k r₀ hm => hlk k r₀ (List.mem_cons_of_mem _ hm))
        ?_ h
      intro f idx hm
      have := idxsOnUpdate_inv hM hinv hflag f idx hm
      exact ⟨this.1, IdxSound_congr hcongr this.2.1, IdxComplete_congr hcongr this.2.2⟩
    · rw [if_neg hflag] at h
      simp only [Prod.mk.injEq] at h
      simp at h

theorem update_preserves_inv {t : Table} {changes : Record} {w : Option Pred}
    (hinv : Inv t) (hpknot : acontains changes t.primary_key = false)
    (hok : (Table.update t changes w).1 ≠ .error .hostError) :
    Inv (Table.update t changes w).2 := by
  rcases hinv with ⟨hnd, hpk, hidx⟩
  have hspec := @updateGo_spec changes w t.schema t.records hnd
  rw [Table.update]
  rcases Option.eq_none_or_eq_some (updateGo changes w t.schema t.records).2.2.2 with
    herr | ⟨e, herr⟩
  · rw [herr]
    dsimp only
    by_cases hn : (updateGo changes w t.schema t.records).2.2.1 = 0
    · rw [if_pos hn]
      refine ⟨?_, ?_, ?_⟩ <;> rw [hspec.2.2.2.1] <;> first
        | exact hnd
        | exact hpk
        | exact hidx
    · rw [if_neg hn]
      rw [Table.update] at hok
      rw [herr] at hok
      dsimp only at hok
      rw [if_neg hn] at hok
      by_cases hflag :
          (updateIdxLoop (updateGo changes w t.schema t.records).1
            (updateGo changes w t.schema t.records).2.1 t.indexes).2 = true
      · rw [if_pos hflag] at hok ⊢
        refine ⟨?_, ?_, ?_⟩
        · rw [hspec.1]
          exact hnd
        · intro k r' hm
          rcases hspec.2.2.2.2.2 (k, r') hm with ⟨r₀, hr₀, hor⟩
          rcases hor with hor | hor
          · simp only at hor
            subst hor
            exact hpk k r' hr₀
          · simp only at hor
            subst hor
            rw [alookup_rmerge_not_mem hpknot]
            exact hpk k r₀ hr₀
        · intro f idx hm
          refine updateIdxLoop_inv (updateGo changes w t.schema t.records).2.1
            t.indexes _ hspec.2.2.1 (hspec.2.2.2.2.1 herr) ?_
            (by rw [← hflag]) f idx hm
          intro g j hj
          rw [hspec.2.2.2.1]
          exact hidx g j hj
      · rw [if_neg hflag] at hok
        exact absurd rfl hok
  · rw [herr]
    dsimp only
    refine ⟨?_, ?_, ?_⟩ <;> rw [hspec.2.2.2.1] <;> first
      | exact hnd
      | exact hpk
      | exact hidx

theorem reachableA_inv {t : Table} (h : ReachableA t) : Inv t := by
  induction h with
  | init pk schema =>
    refine ⟨by simp [Table.new, akeys], by simp [Table.new], by simp [Table.new]⟩
  | step_insert r _ hok ih => exact insert_preserves_inv ih hok
  | step_update changes w _ hok hch ih => exact update_preserves_inv ih hch hok
  | step_delete w _ hok ih => exact delete_preserves_inv ih hok
  | step_create_index f ty _ ih => exact create_index_preserves_inv f ty ih

theorem inv_consistentNN {t : Table} (hinv : Inv t) : IndexTableConsistentNN t := by
  rcases hinv with ⟨hnd, _, hidx⟩
  intro f idx hm
  rcases hidx f idx hm with ⟨hwf, hsound, hcomp⟩
  constructor
  · intro k r hl v hv hvn
    have hmem : idxMem idx v k := hcomp v k r hvn hl hv
    have hs := idxSearch_isSome_of_mem hwf hmem
    cases hsrch : idxSearch idx v with
    | none => rw [hsrch] at hs; simp at hs
    | some pks =>
      exact ⟨pks, rfl, (idxSearch_spec hwf hsrch k).mpr hmem⟩
  · intro v pks hsrch k hk
    exact hsound v k ((idxSearch_spec hwf hsrch k).mp hk)


/-- C1 (counterexample): the claim fails as stated. From a fresh table,
insert `{"id": 1, "f": 10}`, create a hash index on f, update the pk field
via `update({"id": 2}, where=(f == 10))` (the map key stays 1), then
`delete(where=(f == 10))`. Every call succeeds (no host error), yet the
final state keeps `index["f"].search(10) = {1}` while the record map is
empty: `delete` removed the index entry under `record["id"] = 2`, not under
the map key 1. The converse direction of the claimed consistency is false. -/
theorem c1_counterexample :
    (Table.insert exTable0 [("id", Value.int 1), ("f", Value.int 10)]).1 = .ok () ∧
    (Table.update exTable2 [("id", Value.int 2)]
      (some (.fieldCond "f" (.int 10) .eq))).1 = .ok 1 ∧
    (Table.delete exTable3 (some (.fieldCond "f" (.int 10) .eq))).1 = .ok 1 ∧
    ¬ IndexTableConsistent exTable4 := by
  refine ⟨rfl, rfl, rfl, ?_⟩
  intro hcon
  rcases (hcon "f" (Index.hash [(.int 10, [.int 1])]) (by decide)).2
      (Value.int 10) [Value.int 1] (by decide) (Value.int 1) (by decide) with ⟨r, hr, _⟩
  rw [show alookup exTable4.records (Value.int 1) = Option.none from rfl] at hr
  cases hr

/-- C1 (amended): for every table state reachable by insert, update, delete
and create_index calls in which no call raises a host-level exception out of
index maintenance or key computation and no update writes to the primary-key
field, index/table consistency holds: for every indexed field f, every
current record with a non-None value v at f is found by `index[f].search(v)`
under its map key, and conversely every pk returned by a search maps to a
current record whose value at f is the searched value. -/
theorem c1_index_consistency_amended (t : Table) (h : ReachableA t) :
    IndexTableConsistentNN t :=
  inv_consistentNN (reachableA_inv h)

/-- C1 (witness): the amended consistency theorem applied to the concrete
reachable table with one record and a hash index on f. -/
theorem c1_index_consistency_witness : IndexTableConsistentNN exTable2 :=
  c1_index_consistency_amended exTable2
    (ReachableA.step_create_index "f" "hash"
      (ReachableA.step_insert [("id", Value.int 1), ("f", Value.int 10)]
        (ReachableA.init "id" Option.none) (by decide)))

/-- C2: every update call that fails with a schema-validation error or with
RecordNotFound (zero matches) leaves the record map exactly as it was before
the call — every record touched in the call is restored from its pre-image —
and that error is the call's returned outcome. -/
theorem c2_update_atomicity (t : Table) (changes : Record) (w : Option Pred) (e : DbErr)
    (hnd : (akeys t.records).Nodup)
    (hres : (Table.update t changes w).1 = .error e)
    (hkind : (∃ ve, e = .validation ve) ∨ e = .recordNotFound) :
    (Table.update t changes w).2.records = t.records := by
  have hspec := @updateGo_spec changes w t.schema t.records hnd
  rw [Table.update] at hres ⊢
  rcases Option.eq_none_or_eq_some (updateGo changes w t.schema t.records).2.2.2 with
    herr | ⟨e', herr⟩
  · rw [herr] at hres ⊢
    dsimp only at hres ⊢
    by_cases hn : (updateGo changes w t.schema t.records).2.2.1 = 0
    · rw [if_pos hn]
      exact hspec.2.2.2.1
    · rw [if_neg hn] at hres ⊢
      by_cases hflag :
          (updateIdxLoop (updateGo changes w t.schema t.records).1
            (updateGo changes w t.schema t.records).2.1 t.indexes).2 = true
      · rw [if_pos hflag] at hres
        cases hres
      · rw [if_neg hflag] at hres
        simp only [Except.error.injEq] at hres
        rcases hkind with ⟨ve, hk⟩ | hk <;> rw [← hres] at hk <;> cases hk
  · rw [herr] at hres ⊢
    dsimp only
    exact hspec.2.2.2.1

/-- C2 (witness): on the two-record schema table, `update({"a": "x"})`
matches both records, mutates the first, fails its validation with a
TypeMismatch, and the record map is restored to its pre-call state. -/
theorem c2_update_atomicity_witness :
    (akeys exSchemaT2.records).Nodup ∧
    (Table.update exSchemaT2 [("a", Value.str "x")] Option.none).1 =
      .error (.validation (.typeMismatch "a")) ∧
    (Table.update exSchemaT2 [("a", Value.str "x")] Option.none).2.records =
      exSchemaT2.records :=
  ⟨by decide, rfl,
    c2_update_atomicity exSchemaT2 [("a", Value.str "x")] Option.none
      (.validation (.typeMismatch "a")) (by decide) rfl (Or.inl ⟨_, rfl⟩)⟩

/-- C9: auto-assigned primary keys can be reused after a deletion. Two
inserts without a pk get keys 1 and 2; deleting key 2 and inserting another
record without a pk assigns key 2 again (`max(current keys) + 1`), so
auto-assigned keys are only unique among currently present records. -/
theorem c9_auto_key_reuse :
    exSeqT2.records = [(.int 1, [("id", .int 1)]), (.int 2, [("id", .int 2)])] ∧
    (Table.delete exSeqT2 (some (.fieldCond "id" (.int 2) .eq))).1 = .ok 1 ∧
    (Table.insert exSeqT3 []).1 = .ok () ∧
    alookup (Table.insert exSeqT3 []).2.records (Value.int 2) =
      some [("id", Value.int 2)] :=
  ⟨rfl, rfl, rfl, rfl⟩

/-- After a successful `Table.insertKeyed`, the record is stored in the map
under the given key. -/
theorem insertKeyed_ok_lookup {t : Table} {r : Record} {key : Value}
    (hok : (Table.insertKeyed t r key).1 = .ok ()) :
    alookup (Table.insertKeyed t r key).2.records key = some r := by
  rw [Table.insertKeyed] at hok ⊢
  rcases Option.eq_none_or_eq_some (validateRecord t.schema r) with hv | ⟨e, hv⟩
  · rw [hv] at hok ⊢
    dsimp only at hok ⊢
    by_cases hflag : (idxsOnInsert key r t.indexes).2 = true
    · rw [if_pos hflag]
      dsimp only
      rw [alookup_aset, if_pos rfl]
    · rw [if_neg hflag] at hok
      cases hok
  · rw [hv] at hok
    cases hok

/-- C5: primary-key semantics of `Table.insert`. On an empty table a record
without the pk field is auto-assigned key 1 and stored under it; on a
nonempty table whose max key is the int `n`, it is assigned `n + 1`; a
record carrying an already-present pk is rejected with `DuplicateKeyError`
and the table is unchanged; a successful insert with an explicit pk stores
the record in the map under that pk value. -/
theorem c5_insert_key_semantics (t : Table) (r : Record) :
    (t.records = [] → rhas r t.primary_key = false →
      (Table.insert t r).1 = .ok () →
      alookup (Table.insert t r).2.records (.int 1) =
        some (rset r t.primary_key (.int 1))) ∧
    (∀ (k0 : Value) (r0 : Record) (rest : List (Value × Record)) (n : Int),
      t.records = (k0, r0) :: rest →
      pyMax k0 (rest.map Prod.fst) = some (.int n) →
      rhas r t.primary_key = false →
      (Table.insert t r).1 = .ok () →
      alookup (Table.insert t r).2.records (.int (n + 1)) =
        some (rset r t.primary_key (.int (n + 1)))) ∧
    (rhas r t.primary_key = true →
      acontains t.records (rget r t.primary_key) = true →
      Table.insert t r = (.error .duplicateKey, t)) ∧
    (rhas r t.primary_key = true →
      acontains t.records (rget r t.primary_key) = false →
      (Table.insert t r).1 = .ok () →
      alookup (Table.insert t r).2.records (rget r t.primary_key) = some r) := by
  refine ⟨?_, ?_, ?_, ?_⟩
  · intro hrec hrp hok
    rw [Table.insert, if_neg (by simp [hrp]), hrec] at hok ⊢
    dsimp only at hok ⊢
    exact insertKeyed_ok_lookup hok
  · intro k0 r0 rest n hrec hmax hrp hok
    rw [Table.insert, if_neg (by simp [hrp]), hrec] at hok ⊢
    dsimp only at hok ⊢
    rw [hmax] at hok ⊢
    simp only [Option.bind_eq_bind, Option.some_bind] at hok ⊢
    rw [show pyAdd1 (.int n) = some (.int (n + 1)) from rfl] at hok ⊢
    exact insertKeyed_ok_lookup hok
  · intro hrp hc
    rw [Table.insert, if_pos hrp, if_pos hc]
  · intro hrp hc hok
    rw [Table.insert, if_pos hrp, if_neg (by simp [hc])] at hok ⊢
    exact insertKeyed_ok_lookup hok

/-- C5 (witness): concrete instances of each pk rule — key 1 on the empty
table, key 2 = max + 1 on a one-record table, a duplicate explicit pk
rejected without mutation, and a fresh explicit pk stored under itself. -/
theorem c5_insert_key_semantics_witness :
    (alookup (Table.insert exTable0 []).2.records (Value.int 1) =
      some (rset [] exTable0.primary_key (Value.int 1))) ∧
    (alookup (Table.insert exSeqT3 []).2.records (Value.int (1 + 1)) =
      some (rset [] exSeqT3.primary_key (Value.int (1 + 1)))) ∧
    (Table.insert exTable1 [("id", Value.int 1)] =
      (.error .duplicateKey, exTable1)) ∧
    (alookup (Table.insert exTable1 [("id", Value.int 5)]).2.records
      (rget [("id", Value.int 5)] exTable1.primary_key) =
      some [("id", Value.int 5)]) :=
  ⟨(c5_insert_key_semantics exTable0 []).1 rfl (by decide) rfl,
   (c5_insert_key_semantics exSeqT3 []).2.1 (Value.int 1) [("id", Value.int 1)] [] 1
     (by decide) (by decide) (by decide) rfl,
   (c5_insert_key_semantics exTable1 [("id", Value.int 1)]).2.2.1 (by decide) (by decide),
   (c5_insert_key_semantics exTable1 [("id", Value.int 5)]).2.2.2 (by decide) (by decide) rfl⟩

/-- C6: the schema-validation contract of `Table.validate_record`. Without a
schema every record passes. With a schema, validation succeeds exactly when
every declared field is present with a value of its declared type and every
record field is declared; a `MissingField f` outcome means `f` is declared
and absent; a `TypeMismatch f` outcome means `f` is declared and carries a
value of the wrong type; an `UnknownField f` outcome means `f` is an
undeclared record field and — declared fields being checked first — all
declared fields already passed; and any missing or ill-typed declared field
forces a `MissingField` or `TypeMismatch` failure. -/
theorem c6_schema_validation (s : Schema) (r : Record) :
    (validateRecord Option.none r = Option.none) ∧
    (validateRecord (some s) r = Option.none ↔
      (∀ p, p ∈ s → ∃ v, alookup r p.1 = some v ∧ isinstance v p.2 = true) ∧
      (∀ q, q ∈ r → acontains s q.1 = true)) ∧
    (∀ f, validateRecord (some s) r = some (.missingField f) →
      f ∈ akeys s ∧ alookup r f = Option.none) ∧
    (∀ f, validateRecord (some s) r = some (.typeMismatch f) →
      ∃ ty v, (f, ty) ∈ s ∧ alookup r f = some v ∧ isinstance v ty = false) ∧
    (∀ f, validateRecord (some s) r = some (.unknownField f) →
      f ∈ akeys r ∧ acontains s f = false ∧
      ∀ p, p ∈ s → ∃ v, alookup r p.1 = some v ∧ isinstance v p.2 = true) ∧
    ((∃ p, p ∈ s ∧ (alookup r p.1 = Option.none ∨
        ∃ v, alookup r p.1 = some v ∧ isinstance v p.2 = false)) →
      ∃ f, validateRecord (some s) r = some (.missingField f) ∨
        validateRecord (some s) r = some (.typeMismatch f)) := by
  have hval : validateRecord (some s) r =
      match checkDeclared r s with
      | some e => some e
      | Option.none => checkUnknown s r := rfl
  refine ⟨rfl, ?_, ?_, ?_, ?_, ?_⟩
  · rw [hval]
    rcases Option.eq_none_or_eq_some (checkDeclared r s) with hd | ⟨e, hd⟩
    · rw [hd]
      dsimp only
      constructor
      · intro hu
        exact ⟨checkDeclared_eq_none.mp hd, fun q hq =>
          checkUnknown_eq_none.mp hu q hq⟩
      · intro h
        exact checkUnknown_eq_none.mpr h.2
    · rw [hd]
      dsimp only
      constructor
      · intro h
        cases h
      · intro h
        have hd0 : checkDeclared r s = Option.none := checkDeclared_eq_none.mpr h.1
        rw [hd0] at hd
        cases hd
  · intro f h
    rw [hval] at h
    rcases Option.eq_none_or_eq_some (checkDeclared r s) with hd | ⟨e, hd⟩
    · rw [hd] at h
      dsimp only at h
      obtain ⟨g, hg, _, _⟩ := checkUnknown_some h
      cases hg
    · rw [hd] at h
      dsimp only at h
      rcases h with h
      rw [h] at hd
      rcases checkDeclared_some hd with ⟨g, hg, hmem, hnone⟩ | ⟨g, ty, v, hg, _, _, _⟩
      · obtain rfl : f = g := by cases hg; rfl
        exact ⟨hmem, hnone⟩
      · cases hg
  · intro f h
    rw [hval] at h
    rcases Option.eq_none_or_eq_some (checkDeclared r s) with hd | ⟨e, hd⟩
    · rw [hd] at h
      dsimp only at h
      obtain ⟨g, hg, _, _⟩ := checkUnknown_some h
      cases hg
    · rw [hd] at h
      dsimp only at h
      rcases h with h
      rw [h] at hd
      rcases checkDeclared_some hd with ⟨g, hg, _, _⟩ |
        ⟨g, ty, v, hg, hmem, hlook, hbad⟩
      · cases hg
      · obtain rfl : f = g := by cases hg; rfl
        exact ⟨ty, v, hmem, hlook, hbad⟩
  · intro f h
    rw [hval] at h
    rcases Option.eq_none_or_eq_some (checkDeclared r s) with hd | ⟨e, hd⟩
    · rw [hd] at h
      dsimp only at h
      obtain ⟨g, hg, hmem, hnc⟩ := checkUnknown_some h
      obtain rfl : f = g := by cases hg; rfl
      exact ⟨hmem, hnc, checkDeclared_eq_none.mp hd⟩
    · rw [hd] at h
      dsimp only at h
      rcases h with h
      rw [h] at hd
      rcases checkDeclared_some hd with ⟨g, hg, _, _⟩ | ⟨g, ty, v, hg, _, _, _⟩
      · cases hg
      · cases hg
  · intro hbad
    rw [hval]
    rcases Option.eq_none_or_eq_some (checkDeclared r s) with hd | ⟨e, hd⟩
    · exfalso
      obtain ⟨p, hp, hcase⟩ := hbad
      obtain ⟨v, hv, hty⟩ := checkDeclared_eq_none.mp hd p hp
      rcases hcase with hnone | ⟨w, hw, hwty⟩
      · rw [hnone] at hv
        cases hv
      · rw [hw] at hv
        injection hv with hv
        rw [hv, hty] at hwty
        simp at hwty
    · rw [hd]
      dsimp only
      rcases checkDeclared_some hd with ⟨g, hg, _, _⟩ | ⟨g, ty, v, hg, _, _, _⟩
      · exact ⟨g, Or.inl (by rw [hg])⟩
      · exact ⟨g, Or.inr (by rw [hg])⟩

/-- C6 (witness): on the schema `{id: int, name: str}` — a record missing
`name` fails with MissingField, one with an int `name` fails with
TypeMismatch (its declared diagnosis holds), an extra field fails with
UnknownField, a conforming record passes, and any record passes without a
schema. -/
theorem c6_schema_validation_witness :
    validateRecord Option.none [("x", Value.int 1)] = Option.none ∧
    ("name" ∈ akeys [("id", PyType.intT), ("name", PyType.strT)] ∧
      alookup [("id", Value.int 1)] "name" = Option.none) ∧
    (∃ ty v, ("name", ty) ∈ [("id", PyType.intT), ("name", PyType.strT)] ∧
      alookup [("id", Value.int 1), ("name", Value.int 2)] "name" = some v ∧
      isinstance v ty = false) ∧
    ("extra" ∈ akeys [("id", Value.int 1), ("name", Value.str "a"),
        ("extra", Value.int 3)] ∧
      acontains [("id", PyType.intT), ("name", PyType.strT)] "extra" = false ∧
      ∀ p, p ∈ [("id", PyType.intT), ("name", PyType.strT)] →
        ∃ v, alookup [("id", Value.int 1), ("name", Value.str "a"),
          ("extra", Value.int 3)] p.1 = some v ∧ isinstance v p.2 = true) ∧
    validateRecord (some [("id", PyType.intT), ("name", PyType.strT)])
      [("id", Value.int 1), ("name", Value.str "a")] = Option.none :=
  ⟨(c6_schema_validation [] [("x", Value.int 1)]).1,
   (c6_schema_validation [("id", PyType.intT), ("name", PyType.strT)]
      [("id", Value.int 1)]).2.2.1 "name" (by decide),
   (c6_schema_validation [("id", PyType.intT), ("name", PyType.strT)]
      [("id", Value.int 1), ("name", Value.int 2)]).2.2.2.1 "name" (by decide),
   (c6_schema_validation [("id", PyType.intT), ("name", PyType.strT)]
      [("id", Value.int 1), ("name", Value.str "a"), ("extra", Value.int 3)]).2.2.2.2.1
      "extra" (by decide),
   ((c6_schema_validation [("id", PyType.intT), ("name", PyType.strT)]
      [("id", Value.int 1), ("name", Value.str "a")]).2.1).mpr (by decide)⟩

/-- `pyLe` raises exactly when `pyLt` does. -/
theorem pyLe_eq_none_iff (a b : Value) :
    pyLe a b = Option.none ↔ pyLt a b = Option.none := by
  cases a <;> cases b <;> simp [pyLt, pyLe]

/-- `pyLt` raises symmetrically in its operands. -/
theorem pyLt_eq_none_comm (a b : Value) :
    pyLt a b = Option.none ↔ pyLt b a = Option.none := by
  cases a <;> cases b <;> simp [pyLt]

/-- C4 (counterexample): evaluating `age < 5` against a record missing the
`age` field retrieves `None` and the host ordering raises — the evaluation
propagates the exception (`Option.none`) instead of returning `false`. -/
theorem c4_counterexample :
    rget [] "age" = Value.none ∧
    evalPred (.fieldCond "age" (Value.int 5) .lt) [] = Option.none :=
  ⟨rfl, rfl⟩

/-- C4 (amended): `_FieldCondition` evaluation applies the operator to the
retrieved field value (`None` when the field is missing) with no handler:
`=` and `≠` never raise, and an ordering comparison (`<`, `≤`, `>`, `≥`)
raises precisely when the two operands are order-incomparable — it is not
coerced to `false`. -/
theorem c4_field_condition_eval (f : String) (v : Value) (op : POp) (r : Record) :
    evalPred (.fieldCond f v op) r = pyOpApply op (rget r f) v ∧
    (op = .eq ∨ op = .ne → (evalPred (.fieldCond f v op) r).isSome = true) ∧
    (evalPred (.fieldCond f v op) r = Option.none ↔
      (op = .lt ∨ op = .le ∨ op = .gt ∨ op = .ge) ∧
      pyLt (rget r f) v = Option.none) := by
  refine ⟨rfl, ?_, ?_⟩
  · rintro (rfl | rfl) <;> simp [evalPred, pyOpApply]
  · cases op
    · simp [evalPred, pyOpApply]
    · simp [evalPred, pyOpApply]
    · simp [evalPred, pyOpApply]
    · simp [evalPred, pyOpApply, pyLe_eq_none_iff]
    · simp [evalPred, pyOpApply, pyLt_eq_none_comm (rget r f) v]
    · simp [evalPred, pyOpApply, pyLe_eq_none_iff, pyLt_eq_none_comm (rget r f) v]

/-- C4 (witness): `age == 5` on the empty record evaluates without raising,
while `age < 5` on it raises because `None` and `5` are order-incomparable. -/
theorem c4_field_condition_eval_witness :
    (evalPred (.fieldCond "age" (Value.int 5) .eq) []).isSome = true ∧
    ((POp.lt = POp.lt ∨ POp.lt = POp.le ∨ POp.lt = POp.gt ∨ POp.lt = POp.ge) ∧
      pyLt (rget [] "age") (Value.int 5) = Option.none) :=
  ⟨(c4_field_condition_eval "age" (Value.int 5) .eq []).2.1 (Or.inl rfl),
   (c4_field_condition_eval "age" (Value.int 5) .lt []).2.2.mp rfl⟩

/-- C8: `create_index` failure isolation. The call never raises (it is a
total function on table states) and never touches the record map; when the
field is already indexed it is a no-op; when any step of index creation
fails — an unsupported index type, or a raise while replaying existing
records into the new index — the whole table is left exactly as it was; and
on success only the new index is appended. -/
theorem c8_create_index_isolation (t : Table) (field index_type : String) :
    (Table.create_index t field index_type).records = t.records ∧
    (acontains t.indexes field = true → Table.create_index t field index_type = t) ∧
    (buildIndex field index_type t.records = Option.none →
      Table.create_index t field index_type = t) ∧
    (∀ idx, acontains t.indexes field = false →
      buildIndex field index_type t.records = some idx →
      Table.create_index t field index_type =
        { t with indexes := t.indexes ++ [(field, idx)] }) := by
  refine ⟨?_, ?_, ?_, ?_⟩
  · rw [Table.create_index]
    by_cases hc : acontains t.indexes field = true
    · rw [if_pos hc]
    · rw [if_neg hc]
      rcases Option.eq_none_or_eq_some (buildIndex field index_type t.records) with
        hb | ⟨i, hb⟩
      · rw [hb]
      · rw [hb]
  · intro hc
    rw [Table.create_index, if_pos hc]
  · intro hb
    rw [Table.create_index]
    by_cases hc : acontains t.indexes field = true
    · rw [if_pos hc]
    · rw [if_neg hc, hb]
  · intro idx hc hb
    rw [Table.create_index, if_neg (by simp [hc]), hb]

/-- C8 (witness): concrete isolation checks — an unsupported index type
("btree") and a sorted-index build over order-incomparable field values both
leave the table untouched; an index on an already-indexed field is a no-op;
a successful hash build installs exactly the populated index. -/
theorem c8_create_index_isolation_witness :
    Table.create_index exTable1 "f" "btree" = exTable1 ∧
    Table.create_index exMixT "f" "sorted" = exMixT ∧
    Table.create_index exTable2 "f" "hash" = exTable2 ∧
    Table.create_index exTable1 "f" "hash" =
      { exTable1 with indexes :=
          exTable1.indexes ++ [("f", Index.hash [(.int 10, [.int 1])])] } :=
  ⟨(c8_create_index_isolation exTable1 "f" "btree").2.2.1 (by decide),
   (c8_create_index_isolation exMixT "f" "sorted").2.2.1 (by decide),
   (c8_create_index_isolation exTable2 "f" "hash").2.1 (by decide),
   (c8_create_index_isolation exTable1 "f" "hash").2.2.2
     (Index.hash [(.int 10, [.int 1])]) (by decide) (by decide)⟩

/-- C10: writer preference on the table's reader/writer lock. A newly
arriving reader blocks whenever a writer holds the lock or is waiting; in
particular it blocks as soon as a writer has queued, so the pool of active
readers can only drain while a writer waits (a release strictly decrements
it); and once the lock is free of readers and writers, a waiting writer
acquires it, leaving the queue. -/
theorem c10_writer_preference (l : RWLock) :
    (0 < l.waitingWriters ∨ l.writerActive = true →
      RWLock.tryAcquireRead l = Option.none) ∧
    (0 < (RWLock.writerArrive l).waitingWriters ∧
      RWLock.tryAcquireRead (RWLock.writerArrive l) = Option.none) ∧
    ((RWLock.releaseRead l).activeReaders = l.activeReaders - 1) ∧
    (l.activeReaders = 0 → l.writerActive = false →
      RWLock.tryAcquireWrite l =
        some { l with
                writerActive := true
                waitingWriters := l.waitingWriters - 1 }) := by
  refine ⟨?_, ⟨Nat.succ_pos _, ?_⟩, rfl, ?_⟩
  · rintro (h | h) <;> simp [RWLock.tryAcquireRead, h]
  · simp [RWLock.writerArrive, RWLock.tryAcquireRead]
  · intro h0 hw
    simp [RWLock.tryAcquireWrite, h0, hw]

/-- C10 (witness): with two readers active, an arriving writer queues and a
later reader is blocked; once both readers have released, the waiting writer
acquires the lock exclusively. -/
theorem c10_writer_preference_witness :
    RWLock.tryAcquireRead (RWLock.writerArrive ⟨2, false, 0⟩) = Option.none ∧
    RWLock.tryAcquireWrite ⟨0, false, 1⟩ =
      some { RWLock.mk 0 false 1 with
              writerActive := true
              waitingWriters := 1 - 1 } :=
  ⟨(c10_writer_preference ⟨2, false, 0⟩).2.1.2,
   (c10_writer_preference ⟨0, false, 1⟩).2.2.2 rfl rfl⟩

/-! ### Sorting lemmas (`dictdb/query/order.py`) -/

theorem getD_false_eq_some_true {o : Option Bool} (h : o.getD false = true) :
    o = some true := by
  cases o with
  | none => simp at h
  | some b => cases b with
    | false => simp at h
    | true => rfl

theorem sinsert_perm (lt : Record → Record → Bool) (x : Record) (l : List Record) :
    (sinsert lt x l).Perm (x :: l) := by
  induction l with
  | nil => exact List.Perm.refl _
  | cons y ys ih =>
    rw [sinsert]
    by_cases h : lt y x = true
    · rw [if_pos h]
      exact (ih.cons y).trans (List.Perm.swap x y ys)
    · rw [if_neg h]

theorem ssort_perm (lt : Record → Record → Bool) (l : List Record) :
    (ssort lt l).Perm l := by
  induction l with
  | nil => exact List.Perm.refl _
  | cons x xs ih => exact (sinsert_perm lt x (ssort lt xs)).trans (ih.cons x)

theorem sortKeyLt_trans {d : Bool} {f : String} {a b c : Record}
    (h1 : sortKeyLt d f a b = true) (h2 : sortKeyLt d f b c = true) :
    sortKeyLt d f a c = true := by
  cases d <;> simp only [sortKeyLt, if_true, if_false, Bool.false_eq_true] at h1 h2 ⊢
  · rw [pyLt_trans (getD_false_eq_some_true h1) (getD_false_eq_some_true h2)]
    rfl
  · rw [pyLt_trans (getD_false_eq_some_true h2) (getD_false_eq_some_true h1)]
    rfl

theorem sortKeyLt_asymm {d : Bool} {f : String} {a b : Record}
    (h1 : sortKeyLt d f a b = true) : sortKeyLt d f b a = false := by
  rcases Bool.eq_false_or_eq_true (sortKeyLt d f b a) with h2 | h2
  · exfalso
    cases d <;> simp only [sortKeyLt, if_true, if_false, Bool.false_eq_true] at h1 h2 <;>
      exact pyLt_asymm (getD_false_eq_some_true h1) (getD_false_eq_some_true h2)
  · exact h2

/-- When the two keys share a non-`None` dynamic type, they are comparable. -/
theorem pyLt_isSome_of_typeEq {a b : Value} (ht : a.typeOf = b.typeOf)
    (hn : a.typeOf ≠ .noneT) : (pyLt a b).isSome = true := by
  cases a <;> cases b <;> simp_all [Value.typeOf, pyLt]

theorem sortKeyLt_tie_eq {d : Bool} {f : String} {a b : Record}
    (ht : (rget a f).typeOf = (rget b f).typeOf)
    (hn : (rget a f).typeOf ≠ .noneT)
    (h1 : sortKeyLt d f a b = false) (h2 : sortKeyLt d f b a = false) :
    rget a f = rget b f := by
  by_contra hne
  have hsome := pyLt_isSome_of_typeEq ht hn
  rcases Option.isSome_iff_exists.mp hsome with ⟨v, hv⟩
  have hvf : pyLt (rget a f) (rget b f) = some false := by
    cases v with
    | false => exact hv
    | true =>
      exfalso
      cases d <;> simp only [sortKeyLt, if_true, if_false, Bool.false_eq_true] at h1 h2
      · rw [hv] at h1
        simp at h1
      · rw [hv] at h2
        simp at h2
  have hgt := pyLt_total hvf hne
  cases d <;> simp only [sortKeyLt, if_true, if_false, Bool.false_eq_true] at h1 h2
  · rw [hgt] at h2
    simp at h2
  · rw [hgt] at h1
    simp at h1

theorem sortKeyLt_congr_left {d : Bool} {f : String} {a a2 b : Record}
    (h : rget a f = rget a2 f) :
    sortKeyLt d f a b = sortKeyLt d f a2 b := by
  rw [sortKeyLt, sortKeyLt, h]

theorem sortKeyLt_of_eq_keys {d : Bool} {f : String} {a b : Record}
    (h : rget a f = rget b f) : sortKeyLt d f a b = false := by
  rw [sortKeyLt, h]
  cases d <;> cases rget b f <;> simp [pyLt, charListLt_irrefl]

theorem rget_eq_none_of_not_rhas {r : Record} {f : String} (h : rhas r f = false) :
    rget r f = Value.none := by
  rw [rhas, acontains] at h
  rw [rget]
  rcases Option.eq_none_or_eq_some (alookup r f) with h0 | ⟨v, h0⟩
  · rw [h0]
    rfl
  · rw [h0] at h
    simp at h

theorem sinsert_sorted {d : Bool} {f : String} {ty : PyType} (hty : ty ≠ .noneT)
    {x : Record} {l : List Record}
    (hP : ∀ r ∈ x :: l, (rget r f).typeOf = ty)
    (hs : l.Pairwise (fun a b => sortKeyLt d f b a = false)) :
    (sinsert (sortKeyLt d f) x l).Pairwise (fun a b => sortKeyLt d f b a = false) := by
  induction l with
  | nil => simp [sinsert]
  | cons y ys ih =>
    rw [sinsert]
    by_cases hlt : sortKeyLt d f y x = true
    · rw [if_pos hlt]
      refine List.Pairwise.cons ?_ ?_
      · intro z hz
        rcases List.mem_cons.mp ((sinsert_perm _ x ys).mem_iff.mp hz) with rfl | hz2
        · exact sortKeyLt_asymm hlt
        · exact (List.pairwise_cons.mp hs).1 z hz2
      · refine ih ?_ (List.pairwise_cons.mp hs).2
        intro r hr
        rcases List.mem_cons.mp hr with rfl | hr2
        · exact hP r (List.mem_cons_self r _)
        · exact hP r (List.mem_cons_of_mem _ (List.mem_cons_of_mem _ hr2))
    · rw [if_neg hlt]
      have hyx : sortKeyLt d f y x = false := by simpa using hlt
      refine List.Pairwise.cons ?_ hs
      intro z hz
      rcases List.mem_cons.mp hz with rfl | hz2
      · exact hyx
      · by_contra h0
        have hzx : sortKeyLt d f z x = true := by simpa using h0
        have hzy : sortKeyLt d f z y = false := (List.pairwise_cons.mp hs).1 z hz2
        by_cases hyz : sortKeyLt d f y z = true
        · have := sortKeyLt_trans hyz hzx
          rw [this] at hyx
          cases hyx
        · have hyz2 : sortKeyLt d f y z = false := by simpa using hyz
          have hkey : rget y f = rget z f := by
            refine sortKeyLt_tie_eq ?_ ?_ hyz2 hzy
            · rw [hP y (List.mem_cons_of_mem _ (List.mem_cons_self y ys)),
                hP z (List.mem_cons_of_mem _ (List.mem_cons_of_mem _ hz2))]
            · rw [hP y (List.mem_cons_of_mem _ (List.mem_cons_self y ys))]
              exact hty
          have hc : sortKeyLt d f z x = sortKeyLt d f y x :=
            sortKeyLt_congr_left hkey.symm
          rw [hc, hyx] at hzx
          cases hzx

theorem ssort_sorted {d : Bool} {f : String} {ty : PyType} (hty : ty ≠ .noneT)
    {l : List Record} (hP : ∀ r ∈ l, (rget r f).typeOf = ty) :
    (ssort (sortKeyLt d f) l).Pairwise (fun a b => sortKeyLt d f b a = false) := by
  induction l with
  | nil => simp [ssort]
  | cons x xs ih =>
    rw [ssort]
    refine sinsert_sorted hty ?_ (ih ?_)
    · intro r hr
      rcases List.mem_cons.mp hr with rfl | hr2
      · exact hP r (List.mem_cons_self r _)
      · exact hP r (List.mem_cons_of_mem _ ((ssort_perm _ xs).mem_iff.mp hr2))
    · intro r hr
      exact hP r (List.mem_cons_of_mem _ hr)

theorem sinsert_filter_neg (lt : Record → Record → Bool) (p : Record → Bool)
    {x : Record} (l : List Record) (hx : p x = false) :
    (sinsert lt x l).filter p = l.filter p := by
  induction l with
  | nil => simp [sinsert, hx]
  | cons y ys ih =>
    rw [sinsert]
    by_cases h : lt y x = true
    · rw [if_pos h]
      rw [List.filter_cons, List.filter_cons, ih]
    · rw [if_neg h]
      rw [List.filter_cons, hx]
      simp

theorem sinsert_filter_pos (lt : Record → Record → Bool) (p : Record → Bool)
    {x : Record} (l : List Record) (hx : p x = true)
    (h : ∀ y ∈ l, p y = true → lt y x = false) :
    (sinsert lt x l).filter p = x :: l.filter p := by
  induction l with
  | nil => simp [sinsert, hx]
  | cons y ys ih =>
    rw [sinsert]
    by_cases hlt : lt y x = true
    · rw [if_pos hlt]
      have hpy : p y = false := by
        rcases Bool.eq_false_or_eq_true (p y) with h0 | h0
        · rw [h y (List.mem_cons_self y ys) h0] at hlt
          cases hlt
        · exact h0
      rw [List.filter_cons, hpy, List.filter_cons, hpy]
      simp only [Bool.false_eq_true, if_false]
      exact ih (fun z hz hp => h z (List.mem_cons_of_mem _ hz) hp)
    · rw [if_neg hlt]
      rw [List.filter_cons, hx]
      simp

theorem ssort_filter (lt : Record → Record → Bool) (p : Record → Bool)
    (l : List Record)
    (h : ∀ x ∈ l, ∀ y ∈ l, p x = true → p y = true → lt y x = false) :
    (ssort lt l).filter p = l.filter p := by
  induction l with
  | nil => rfl
  | cons x xs ih =>
    rw [ssort]
    have ih2 := ih (fun a ha b hb hpa hpb =>
      h a (List.mem_cons_of_mem _ ha) b (List.mem_cons_of_mem _ hb) hpa hpb)
    by_cases hx : p x = true
    · rw [sinsert_filter_pos lt p (ssort lt xs) hx ?_]
      · rw [ih2, List.filter_cons, hx]
        simp
      · intro y hy hpy
        exact h x (List.mem_cons_self x xs) y
          (List.mem_cons_of_mem _ ((ssort_perm lt xs).mem_iff.mp hy)) hx hpy
    · have hx2 : p x = false := by simpa using hx
      rw [sinsert_filter_neg lt p (ssort lt xs) hx2, ih2, List.filter_cons, hx2]
      simp

theorem sinsert_pairwise_lex {d : Bool} {f : String} {ty : PyType}
    (hty : ty ≠ .noneT) (R : Record → Record → Prop) {x : Record} {l : List Record}
    (hP : ∀ r ∈ x :: l, (rget r f).typeOf = ty)
    (hs : l.Pairwise (lexAfter d f R))
    (hxR : ∀ y ∈ l, R x y) :
    (sinsert (sortKeyLt d f) x l).Pairwise (lexAfter d f R) := by
  induction l with
  | nil => simp [sinsert]
  | cons y ys ih =>
    rw [sinsert]
    by_cases hlt : sortKeyLt d f y x = true
    · rw [if_pos hlt]
      refine List.Pairwise.cons ?_ ?_
      · intro z hz
        rcases List.mem_cons.mp ((sinsert_perm _ x ys).mem_iff.mp hz) with rfl | hz2
        · exact Or.inl hlt
        · exact (List.pairwise_cons.mp hs).1 z hz2
      · refine ih ?_ (List.pairwise_cons.mp hs).2 ?_
        · intro r hr
          rcases List.mem_cons.mp hr with rfl | hr2
          · exact hP r (List.mem_cons_self r _)
          · exact hP r (List.mem_cons_of_mem _ (List.mem_cons_of_mem _ hr2))
        · intro r hr
          exact hxR r (List.mem_cons_of_mem _ hr)
    · rw [if_neg hlt]
      have hyx : sortKeyLt d f y x = false := by simpa using hlt
      refine List.Pairwise.cons ?_ hs
      intro z hz
      rcases List.mem_cons.mp hz with rfl | hz2
      · by_cases hxy : sortKeyLt d f x z = true
        · exact Or.inl hxy
        · exact Or.inr ⟨by simpa using hxy, hyx, hxR z (List.mem_cons_self z ys)⟩
      · have hQyz := (List.pairwise_cons.mp hs).1 z hz2
        have hzx : sortKeyLt d f z x = false := by
          by_contra h0
          have hzx2 : sortKeyLt d f z x = true := by simpa using h0
          rcases hQyz with hyz | ⟨hyz1, hyz2, _⟩
          · have := sortKeyLt_trans hyz hzx2
            rw [this] at hyx
            cases hyx
          · have hkey : rget y f = rget z f := by
              refine sortKeyLt_tie_eq ?_ ?_ hyz1 hyz2
              · rw [hP y (List.mem_cons_of_mem _ (List.mem_cons_self y ys)),
                  hP z (List.mem_cons_of_mem _ (List.mem_cons_of_mem _ hz2))]
              · rw [hP y (List.mem_cons_of_mem _ (List.mem_cons_self y ys))]
                exact hty
            have hc : sortKeyLt d f z x = sortKeyLt d f y x :=
              sortKeyLt_congr_left hkey.symm
            rw [hc, hyx] at hzx2
            cases hzx2
        by_cases hxz : sortKeyLt d f x z = true
        · exact Or.inl hxz
        · exact Or.inr ⟨by simpa using hxz, hzx,
            hxR z (List.mem_cons_of_mem _ hz2)⟩

theorem ssort_pairwise_lex {d : Bool} {f : String} {ty : PyType}
    (hty : ty ≠ .noneT) (R : Record → Record → Prop) {l : List Record}
    (hP : ∀ r ∈ l, (rget r f).typeOf = ty)
    (hR : l.Pairwise R) :
    (ssort (sortKeyLt d f) l).Pairwise (lexAfter d f R) := by
  induction l with
  | nil => simp [ssort]
  | cons x xs ih =>
    rw [ssort]
    refine sinsert_pairwise_lex hty R ?_ (ih ?_ (List.pairwise_cons.mp hR).2) ?_
    · intro r hr
      rcases List.mem_cons.mp hr with rfl | hr2
      · exact hP r (List.mem_cons_self r _)
      · exact hP r (List.mem_cons_of_mem _ ((ssort_perm _ xs).mem_iff.mp hr2))
    · intro r hr
      exact hP r (List.mem_cons_of_mem _ hr)
    · intro y hy
      exact (List.pairwise_cons.mp hR).1 y ((ssort_perm _ xs).mem_iff.mp hy)

/-- C7: multi-key ordering. `order_by [f1, f2]` runs one stable sort pass
per field from the last to the first (so the first key dominates and later
keys break its ties), the result is a permutation of the input, each pass is
stable (records with equal keys keep their input order), and a missing
order_by field sorts as `None`. The typing hypotheses say each key field
holds values of one comparable dynamic type, where Python's `sort` is
defined. Determinism across repeated calls is definitional: the pipeline is
a pure function of its input. -/
theorem c7_multi_key_ordering (rs : List Record) (f1 f2 : String) (ty1 ty2 : PyType)
    (hn1 : ty1 ≠ .noneT) (hn2 : ty2 ≠ .noneT)
    (hP1 : ∀ r ∈ rs, (rget r (parseField f1).2).typeOf = ty1)
    (hP2 : ∀ r ∈ rs, (rget r (parseField f2).2).typeOf = ty2) :
    orderRecords rs (some [f1, f2]) =
      ssort (sortKeyLt (parseField f1).1 (parseField f1).2)
        (ssort (sortKeyLt (parseField f2).1 (parseField f2).2) rs) ∧
    (orderRecords rs (some [f1, f2])).Perm rs ∧
    (orderRecords rs (some [f1, f2])).Pairwise
      (lexAfter (parseField f1).1 (parseField f1).2
        (fun a b =>
          sortKeyLt (parseField f2).1 (parseField f2).2 b a = false)) ∧
    (∀ v : Value,
      (sortRecords rs [f2]).filter
          (fun r => decide (rget r (parseField f2).2 = v)) =
        rs.filter (fun r => decide (rget r (parseField f2).2 = v))) ∧
    (∀ (r : Record) (f : String), rhas r f = false → rget r f = Value.none) := by
  have hshape : orderRecords rs (some [f1, f2]) =
      ssort (sortKeyLt (parseField f1).1 (parseField f1).2)
        (ssort (sortKeyLt (parseField f2).1 (parseField f2).2) rs) := rfl
  refine ⟨hshape, ?_, ?_, ?_, ?_⟩
  · rw [hshape]
    exact ((ssort_perm _ _).trans (ssort_perm _ _))
  · rw [hshape]
    refine ssort_pairwise_lex hn1 _ ?_ (ssort_sorted hn2 hP2)
    intro r hr
    exact hP1 r ((ssort_perm _ rs).mem_iff.mp hr)
  · intro v
    have hsr : sortRecords rs [f2] =
        ssort (sortKeyLt (parseField f2).1 (parseField f2).2) rs := rfl
    rw [hsr]
    refine ssort_filter _ _ rs ?_
    intro x hx y hy hpx hpy
    have hkx : rget x (parseField f2).2 = v := of_decide_eq_true hpx
    have hky : rget y (parseField f2).2 = v := of_decide_eq_true hpy
    exact sortKeyLt_of_eq_keys (hky.trans hkx.symm)
  · intro r f h
    exact rget_eq_none_of_not_rhas h

/-- C7 (witness): `order_by ["age", "-name"]` on alice(30), bob(25),
carol(30) yields bob, carol, alice — ascending age, the age tie broken by
descending name — and the lexicographic pairwise bound holds of it. -/
theorem c7_multi_key_ordering_witness :
    orderRecords exPeople (some ["age", "-name"]) = [bobR, carolR, aliceR] ∧
    (orderRecords exPeople (some ["age", "-name"])).Perm exPeople ∧
    (orderRecords exPeople (some ["age", "-name"])).Pairwise
      (lexAfter (parseField "age").1 (parseField "age").2
        (fun a b =>
          sortKeyLt (parseField "-name").1 (parseField "-name").2 b a = false)) :=
  ⟨by decide,
   (c7_multi_key_ordering exPeople "age" "-name" .intT .strT (by decide) (by decide)
      (by decide) (by decide)).2.1,
   (c7_multi_key_ordering exPeople "age" "-name" .intT .strT (by decide) (by decide)
      (by decide) (by decide)).2.2.1⟩

/-! ### Select-path lemmas (`Table.select`) -/

theorem isIndexedEq_some {t : Table} {p : Pred} {f : String} {v : Value}
    (h : isIndexedEq t p = some (f, v)) :
    p = .fieldCond f v .eq ∧ acontains t.indexes f = true := by
  cases p with
  | fieldCond f0 v0 op =>
    cases op with
    | eq =>
      simp only [isIndexedEq] at h
      by_cases hc : acontains t.indexes f0 = true
      · rw [if_pos hc] at h
        simp only [Option.some.injEq, Prod.mk.injEq] at h
        obtain ⟨rfl, rfl⟩ := h
        exact ⟨rfl, hc⟩
      · rw [if_neg hc] at h
        cases h
    | ne => exact absurd h (by simp [isIndexedEq])
    | lt => exact absurd h (by simp [isIndexedEq])
    | le => exact absurd h (by simp [isIndexedEq])
    | gt => exact absurd h (by simp [isIndexedEq])
    | ge => exact absurd h (by simp [isIndexedEq])
  | isIn f0 vs => exact absurd h (by simp [isIndexedEq])
  | between f0 lo hi => exact absurd h (by simp [isIndexedEq])
  | pand p q => exact absurd h (by simp [isIndexedEq])
  | por p q => exact absurd h (by simp [isIndexedEq])
  | pnot p => exact absurd h (by simp [isIndexedEq])

theorem filterWhere_eqCond (f : String) (v : Value) (l : List Record) :
    filterWhere (some (.fieldCond f v .eq)) l =
      some (l.filter (fun r => decide (rget r f = v))) := by
  induction l with
  | nil => rfl
  | cons r rest ih =>
    rw [filterWhere, ih]
    simp only [evalWhere, evalPred, pyOpApply, Option.bind_eq_bind, Option.some_bind,
      Option.pure_def, Option.some.injEq, List.filter_cons]

theorem lookupAll_spec {records : List (Value × Record)} {pks : List Value}
    {cs : List Record} (h : lookupAll records pks = some cs) :
    cs = pks.map (fun k => (alookup records k).getD []) ∧
    ∀ k ∈ pks, (alookup records k).isSome = true := by
  induction pks generalizing cs with
  | nil =>
    rw [lookupAll] at h
    simp only [Option.some.injEq] at h
    subst h
    exact ⟨rfl, by simp⟩
  | cons pk rest ih =>
    rw [lookupAll] at h
    rcases Option.eq_none_or_eq_some (alookup records pk) with h0 | ⟨r, h0⟩
    · rw [h0] at h
      simp at h
    · rw [h0] at h
      simp only [Option.bind_eq_bind, Option.some_bind] at h
      rcases Option.eq_none_or_eq_some (lookupAll records rest) with h1 | ⟨tail, h1⟩
      · rw [h1] at h
        simp at h
      · rw [h1] at h
        simp only [Option.some_bind, Option.pure_def, Option.some.injEq] at h
        obtain ⟨hc1, hc2⟩ := ih h1
        subst h
        refine ⟨?_, ?_⟩
        · rw [List.map_cons, h0, ← hc1]
          rfl
        · intro k hk
          rcases List.mem_cons.mp hk with rfl | hk2
          · rw [h0]
            rfl
          · exact hc2 k hk2

/-- The core of the C3 equivalence: for a non-None equality value on an
indexed field, fetching the index candidates and re-filtering yields (up to
order) the same records as filtering the whole record map. -/
theorem index_candidates_perm {t : Table} {f : String} {idx : Index} {v : Value}
    {pks : List Value} {cands : List Record}
    (hnd : (akeys t.records).Nodup)
    (hwf : IdxWF idx) (hsound : IdxSound t.records f idx)
    (hcomp : IdxComplete t.records f idx)
    (hv : v ≠ Value.none)
    (hse : idxSearch idx v = some pks)
    (hla : lookupAll t.records pks = some cands) :
    (cands.filter (fun r => decide (rget r f = v))).Perm
      ((t.records.map Prod.snd).filter (fun r => decide (rget r f = v))) := by
  obtain ⟨hc_eq, hc_some⟩ := lookupAll_spec hla
  have hcand_all : ∀ r ∈ cands, rget r f = v := by
    intro r hr
    rw [hc_eq] at hr
    rcases List.mem_map.mp hr with ⟨k, hk, hgk⟩
    have hmem : idxMem idx v k := ((idxSearch_spec hwf hse) k).mp hk
    obtain ⟨r0, hr0, hr0f⟩ := hsound v k hmem
    rw [← hgk, hr0]
    show rget r0 f = v
    rw [rget, hr0f]
    rfl
  have hfilter_cands : cands.filter (fun r => decide (rget r f = v)) = cands := by
    refine List.filter_eq_self.mpr ?_
    intro r hr
    simp [hcand_all r hr]
  have hLsub : (t.records.filter (fun q => decide (alookup q.2 f = some v))).Sublist
      t.records := List.filter_sublist _
  have hkeys : pks.Perm
      (akeys (t.records.filter (fun q => decide (alookup q.2 f = some v)))) := by
    refine (List.perm_ext_iff_of_nodup (idxSearch_nodup hwf hse) ?_).mpr ?_
    · exact List.Nodup.sublist (hLsub.map Prod.fst) hnd
    · intro k
      constructor
      · intro hk
        have hmem := (idxSearch_spec hwf hse k).mp hk
        obtain ⟨r0, hr0, hr0f⟩ := hsound v k hmem
        have hkr : (k, r0) ∈ t.records.filter
            (fun q => decide (alookup q.2 f = some v)) :=
          List.mem_filter.mpr ⟨alookup_mem hr0, by simp [hr0f]⟩
        exact List.mem_map.mpr ⟨(k, r0), hkr, rfl⟩
      · intro hk
        rcases List.mem_map.mp hk with ⟨⟨k0, r0⟩, hmemL, hfst⟩
        cases hfst
        obtain ⟨hmemRec, hmatch⟩ := List.mem_filter.mp hmemL
        have hr0f : alookup r0 f = some v := by simpa using hmatch
        have hlook : alookup t.records k0 = some r0 := mem_alookup hnd hmemRec
        exact (idxSearch_spec hwf hse _).mpr (hcomp v k0 r0 hv hlook hr0f)
  have hmap := hkeys.map (fun k => (alookup t.records k).getD [])
  rw [← hc_eq] at hmap
  have hLmap : (akeys (t.records.filter
        (fun q => decide (alookup q.2 f = some v)))).map
        (fun k => (alookup t.records k).getD []) =
      (t.records.filter (fun q => decide (alookup q.2 f = some v))).map Prod.snd := by
    rw [akeys, List.map_map]
    refine List.map_congr_left ?_
    intro q hq
    obtain ⟨hmemRec, hmatch⟩ := List.mem_filter.mp hq
    simp only [Function.comp_apply]
    rw [mem_alookup hnd hmemRec]
    rfl
  have hscan_eq : (t.records.map Prod.snd).filter (fun r => decide (rget r f = v)) =
      (t.records.filter (fun q => decide (alookup q.2 f = some v))).map Prod.snd := by
    rw [List.filter_map]
    congr 1
    refine List.filter_congr ?_
    intro q hq
    have hiff : (rget q.2 f = v) ↔ (alookup q.2 f = some v) := by
      rw [rget]
      rcases Option.eq_none_or_eq_some (alookup q.2 f) with h0 | ⟨x, h0⟩
      · rw [h0]
        constructor
        · intro h
          exact absurd h.symm hv
        · intro h
          cases h
      · rw [h0]
        simp
    simp only [Function.comp_apply]
    exact decide_eq_decide.mpr hiff
  rw [hfilter_cands, hscan_eq, ← hLmap]
  exact hmap

/-- C3 (counterexample): index presence changes select results. Querying
`age == None` on a one-record table whose record lacks `age` matches the
record under a full scan but returns nothing once a hash index exists on
`age` (the record is not indexed); and on a sorted index, an equality query
whose value is order-incomparable with the stored keys raises where the
full scan returns the empty result — with identical record maps. -/
theorem c3_counterexample :
    Table.selectScan exTableNone1 (some (.fieldCond "age" Value.none .eq)) =
      .ok [[("id", Value.int 1)]] ∧
    Table.selectScan exTableNone2 (some (.fieldCond "age" Value.none .eq)) =
      .ok [] ∧
    exTableNone2.records = exTableNone1.records ∧
    Table.selectScan exTableStr1 (some (.fieldCond "f" (Value.int 0) .eq)) =
      .ok [] ∧
    Table.selectScan exTableStr2 (some (.fieldCond "f" (Value.int 0) .eq)) =
      .error .hostError ∧
    exTableStr2.records = exTableStr1.records :=
  ⟨rfl, rfl, rfl, rfl, rfl, rfl⟩

/-- C3 (amended): on an invariant-satisfying table state, whenever the
select scan phase completes without raising — and, if the condition is the
index-assisted case (a bare equality on an indexed field), its compared
value is not None — the index-assisted result is a permutation of the full
scan of the same condition; in particular equality candidates from
`index.search(value)` re-filtered equal (as a multiset) the records matching
the condition among all records. -/
theorem c3_index_scan_equivalence (t : Table) (w : Option Pred)
    (res scan : List Record) (hinv : Inv t)
    (hok : Table.selectScan t w = .ok res)
    (hscan : Table.fullScan t w = some scan)
    (hnn : ∀ p f v, w = some p → isIndexedEq t p = some (f, v) → v ≠ Value.none) :
    res.Perm scan := by
  obtain ⟨hnd, hpk, hidx⟩ := hinv
  cases w with
  | none =>
    rw [Table.selectScan] at hok
    rw [Table.fullScan] at hscan
    rw [hscan] at hok
    dsimp only at hok
    injection hok with hok
    subst hok
    exact List.Perm.refl _
  | some p =>
    rcases Option.eq_none_or_eq_some (isIndexedEq t p) with hie | ⟨⟨f, v⟩, hie⟩
    · rw [Table.selectScan, hie] at hok
      rw [Table.fullScan] at hscan
      rw [hscan] at hok
      dsimp only at hok
      injection hok with hok
      subst hok
      exact List.Perm.refl _
    · obtain ⟨hp, hcont⟩ := isIndexedEq_some hie
      subst hp
      have hv : v ≠ Value.none := hnn _ f v rfl hie
      rw [Table.selectScan, hie] at hok
      dsimp only at hok
      rcases Option.eq_none_or_eq_some (alookup t.indexes f) with hif | ⟨idx, hif⟩
      · rw [hif] at hok
        cases hok
      · rw [hif] at hok
        dsimp only at hok
        obtain ⟨hwf, hsound, hcomp⟩ := hidx f idx (alookup_mem hif)
        rcases Option.eq_none_or_eq_some (idxSearch idx v) with hse | ⟨pks, hse⟩
        · rw [hse] at hok
          cases hok
        · rw [hse] at hok
          dsimp only at hok
          rcases Option.eq_none_or_eq_some (lookupAll t.records pks) with
            hla | ⟨cands, hla⟩
          · rw [hla] at hok
            cases hok
          · rw [hla] at hok
            dsimp only at hok
            rw [filterWhere_eqCond f v cands] at hok
            dsimp only at hok
            injection hok with hok
            subst hok
            rw [Table.fullScan, filterWhere_eqCond f v] at hscan
            injection hscan with hscan
            subst hscan
            exact index_candidates_perm hnd hwf hsound hcomp hv hse hla

/-- C3 (witness): on the one-record table with a hash index on `f`, the
index-assisted select for `f == 10` and the full scan both return exactly
the stored record, and the amended theorem applies (10 is not None). -/
theorem c3_index_scan_equivalence_witness :
    Table.selectScan exTable2 (some (.fieldCond "f" (.int 10) .eq)) =
      .ok [[("id", Value.int 1), ("f", Value.int 10)]] ∧
    Table.fullScan exTable2 (some (.fieldCond "f" (.int 10) .eq)) =
      some [[("id", Value.int 1), ("f", Value.int 10)]] ∧
    ([[("id", Value.int 1), ("f", Value.int 10)]] : List Record).Perm
      [[("id", Value.int 1), ("f", Value.int 10)]] := by
  refine ⟨rfl, rfl, ?_⟩
  refine c3_index_scan_equivalence exTable2 (some (.fieldCond "f" (.int 10) .eq))
    _ _ ?_ rfl rfl ?_
  · exact reachableA_inv (ReachableA.step_create_index "f" "hash"
      (ReachableA.step_insert [("id", Value.int 1), ("f", Value.int 10)]
        (ReachableA.init "id" Option.none) (by decide)))
  · intro p f v hp hie
    injection hp with hp
    rw [← hp] at hie
    rw [show isIndexedEq exTable2 (.fieldCond "f" (.int 10) .eq) =
      some ("f", Value.int 10) from rfl] at hie
    simp only [Option.some.injEq, Prod.mk.injEq] at hie
    obtain ⟨h1, h2⟩ := hie
    subst h2
    decide

end DictDB
